import Mathlib

/-!
# Verification of the schemafy core value model

This development embeds the two components of the schemafy core —
the dynamic value type (src/schemafy_core/src/yaml_value.rs, Rust enum
YamlValue) and the insertion-ordered associative container
(src/schemafy_core/src/mapping.rs, Rust struct Mapping wrapping an
IndexMap) — as Lean definitions, and proves the specified properties
about them.

Modelling conventions:
- Rust i64 values are modelled as Lean Int (the claims under study never
  exercise i64 overflow; where two's-complement wrap/saturation matters,
  as in the f64-to-i64 cast, it is modelled explicitly).
- A Mapping is modelled by its insertion-ordered entry list
  (List (YamlValue × YamlValue)); the IndexMap invariant that keys are
  pairwise non-equal under Rust == is carried as an explicit side
  condition (validKeys) where a property depends on it.
- Rust == on YamlValue is the derived PartialEq, which is structural
  except at Mapping levels, where IndexMap equality is insensitive to
  the order of entries.  It is embedded as beqV below.
- A panic is modelled as a distinguished result (RRes.fatal), separate
  from the recoverable Err(()) result of a TryFrom conversion.
-/

namespace Schemafy

/-- Ordering produced from a linear order the way Rust Ord produces it:
lt when a < b, gt when b < a, eq otherwise.  Used for the leaf
comparisons (bool, i64, String) of the Rust derived Ord/PartialOrd. -/
def cmpOrd {α : Type} [LinearOrder α] (a b : α) : Ordering :=
  if a < b then Ordering.lt else if b < a then Ordering.gt else Ordering.eq

theorem cmpOrd_swap {α : Type} [LinearOrder α] (a b : α) :
    cmpOrd b a = (cmpOrd a b).swap := by
  unfold cmpOrd
  rcases lt_trichotomy a b with h | h | h
  · simp [h, not_lt_of_gt h, Ordering.swap]
  · simp [h, lt_irrefl, Ordering.swap]
  · simp [h, not_lt_of_gt h, Ordering.swap]

theorem cmpOrd_eq_iff {α : Type} [LinearOrder α] (a b : α) :
    cmpOrd a b = Ordering.eq ↔ a = b := by
  unfold cmpOrd
  rcases lt_trichotomy a b with h | h | h
  · simp [h, ne_of_lt h]
  · simp [h, lt_irrefl]
  · simp [not_lt_of_gt h, h, (ne_of_lt h).symm]

theorem cmpOrd_lt_iff {α : Type} [LinearOrder α] (a b : α) :
    cmpOrd a b = Ordering.lt ↔ a < b := by
  unfold cmpOrd
  rcases lt_trichotomy a b with h | h | h <;>
    simp [h, lt_irrefl, not_lt_of_gt, lt_asymm]

theorem cmpOrd_trans {α : Type} [LinearOrder α] {a b c : α}
    (h1 : cmpOrd a b = Ordering.lt) (h2 : cmpOrd b c = Ordering.lt) :
    cmpOrd a c = Ordering.lt := by
  rw [cmpOrd_lt_iff] at h1 h2 ⊢
  exact lt_trans h1 h2

/-- The closed variant set of the value model (Rust enum YamlValue,
yaml_value.rs lines 12-20).  Number carries the i64 payload, Sequence a
Vec of values, Mapping the insertion-ordered entry list of the
IndexMap-backed container. -/
inductive YamlValue where
  | null
  | bool (b : Bool)
  | number (n : Int)
  | string (s : String)
  | sequence (xs : List YamlValue)
  | mapping (m : List (YamlValue × YamlValue))

mutual

/-- Rust == on YamlValue: the derived PartialEq.  Same-variant payloads
compare structurally; Mapping payloads compare with IndexMap equality
(equal length, and every entry of the left map is found in the right map
under key lookup); different variants are unequal. -/
def beqV : YamlValue → YamlValue → Bool
  | .null, .null => true
  | .bool a, .bool b => a == b
  | .number a, .number b => a == b
  | .string a, .string b => a == b
  | .sequence a, .sequence b => beqL a b
  | .mapping a, .mapping b => (a.length == b.length) && subMap a b
  | _, _ => false
termination_by a b => sizeOf a + sizeOf b
decreasing_by all_goals simp_wf; all_goals omega

/-- Vec equality: element-wise. -/
def beqL : List YamlValue → List YamlValue → Bool
  | [], [] => true
  | x :: xs, y :: ys => beqV x y && beqL xs ys
  | _, _ => false
termination_by a b => sizeOf a + sizeOf b
decreasing_by all_goals simp_wf; all_goals omega

/-- Every entry of the first list is found in the second under key
lookup with a matching value (the iteration half of IndexMap ==). -/
def subMap : List (YamlValue × YamlValue) → List (YamlValue × YamlValue) → Bool
  | [], _ => true
  | (k, v) :: rest, b => lookupBeq k v b && subMap rest b
termination_by a b => sizeOf a + sizeOf b
decreasing_by all_goals simp_wf; all_goals omega

/-- IndexMap get followed by value comparison: find the first entry
whose key is Rust-equal to k and compare its value against v. -/
def lookupBeq (k v : YamlValue) : List (YamlValue × YamlValue) → Bool
  | [] => false
  | (k2, v2) :: rest => if beqV k k2 then beqV v v2 else lookupBeq k v rest
termination_by l => sizeOf k + sizeOf v + sizeOf l
decreasing_by all_goals simp_wf; all_goals omega

end

mutual

/-- The helper total_cmp of Mapping::partial_cmp (mapping.rs lines
171-199): a total comparison ranking variants
Null < Bool < Number < String < Sequence < Mapping; same-variant
payloads compare structurally, with sequences and mappings compared
element-wise in iteration order (iter_cmp_by), shorter-is-less, and
mapping entries compared by key then value. -/
def tcmp : YamlValue → YamlValue → Ordering
  | .null, .null => .eq
  | .null, _ => .lt
  | _, .null => .gt
  | .bool a, .bool b => cmpOrd a b
  | .bool _, _ => .lt
  | _, .bool _ => .gt
  | .number a, .number b => cmpOrd a b
  | .number _, _ => .lt
  | _, .number _ => .gt
  | .string a, .string b => cmpOrd a b
  | .string _, _ => .lt
  | _, .string _ => .gt
  | .sequence a, .sequence b => tcmpL a b
  | .sequence _, _ => .lt
  | _, .sequence _ => .gt
  | .mapping a, .mapping b => tcmpP a b
termination_by a b => sizeOf a + sizeOf b
decreasing_by all_goals simp_wf; all_goals omega

/-- iter_cmp_by over element lists: lexicographic, shorter-is-less. -/
def tcmpL : List YamlValue → List YamlValue → Ordering
  | [], [] => .eq
  | [], _ :: _ => .lt
  | _ :: _, [] => .gt
  | x :: xs, y :: ys => (tcmp x y).then (tcmpL xs ys)
termination_by a b => sizeOf a + sizeOf b
decreasing_by all_goals simp_wf; all_goals omega

/-- iter_cmp_by over entry lists: lexicographic on (key, value) pairs
compared by total_cmp on the key then total_cmp on the value. -/
def tcmpP : List (YamlValue × YamlValue) → List (YamlValue × YamlValue) → Ordering
  | [], [] => .eq
  | [], _ :: _ => .lt
  | _ :: _, [] => .gt
  | (k1, v1) :: xs, (k2, v2) :: ys =>
      ((tcmp k1 k2).then (tcmp v1 v2)).then (tcmpP xs ys)
termination_by a b => sizeOf a + sizeOf b
decreasing_by all_goals simp_wf; all_goals omega

end

/-- IndexMap::insert on the entry list: if some existing entry has a
Rust-equal key, its value is replaced in place (the stored key and the
position are retained); otherwise the new pair is appended at the end. -/
def insertPair : List (YamlValue × YamlValue) → YamlValue → YamlValue →
    List (YamlValue × YamlValue)
  | [], k, v => [(k, v)]
  | (k2, v2) :: rest, k, v =>
      if beqV k k2 then (k2, v) :: rest else (k2, v2) :: insertPair rest k v

/-- Building a map by inserting a list of pairs left to right (the
collect / FromIterator path of both Mapping and serde_yaml::Mapping). -/
def buildMap (l : List (YamlValue × YamlValue)) : List (YamlValue × YamlValue) :=
  l.foldl (fun acc p => insertPair acc p.1 p.2) []

/-- Stable insertion into a key-sorted entry list, modelling the
sort_by call of Mapping::partial_cmp (mapping.rs line 237), whose
comparator is total_cmp on the keys only. -/
def insertSorted (p : YamlValue × YamlValue) :
    List (YamlValue × YamlValue) → List (YamlValue × YamlValue)
  | [] => [p]
  | q :: rest =>
      if tcmp p.1 q.1 = Ordering.lt then p :: q :: rest else q :: insertSorted p rest

/-- Sorting the entries of a map by total_cmp on keys (the
canonicalisation step of Mapping::partial_cmp). -/
def sortEntries (l : List (YamlValue × YamlValue)) : List (YamlValue × YamlValue) :=
  l.foldr insertSorted []

theorem insertSorted_sizeOf (p : YamlValue × YamlValue)
    (l : List (YamlValue × YamlValue)) :
    sizeOf (insertSorted p l) = 1 + sizeOf p + sizeOf l := by
  induction l with
  | nil => simp [insertSorted]
  | cons q rest ih =>
      by_cases h : tcmp p.1 q.1 = Ordering.lt
      · simp [insertSorted, h]
      · simp [insertSorted, h, ih]
        omega

theorem sortEntries_sizeOf (l : List (YamlValue × YamlValue)) :
    sizeOf (sortEntries l) = sizeOf l := by
  induction l with
  | nil => rfl
  | cons p rest ih =>
      show sizeOf (insertSorted p (sortEntries rest)) = _
      rw [insertSorted_sizeOf, ih]
      simp

theorem insertSorted_perm (p : YamlValue × YamlValue)
    (l : List (YamlValue × YamlValue)) :
    (insertSorted p l).Perm (p :: l) := by
  induction l with
  | nil => simp [insertSorted]
  | cons q rest ih =>
      by_cases h : tcmp p.1 q.1 = Ordering.lt
      · simp [insertSorted, h]
      · simp only [insertSorted, h, if_false]
        exact (ih.cons q).trans (List.Perm.swap p q rest)

theorem sortEntries_perm (l : List (YamlValue × YamlValue)) :
    (sortEntries l).Perm l := by
  induction l with
  | nil => exact List.Perm.refl _
  | cons p rest ih =>
      exact (insertSorted_perm p (sortEntries rest)).trans (ih.cons p)

theorem sortEntries_length (l : List (YamlValue × YamlValue)) :
    (sortEntries l).length = l.length :=
  (sortEntries_perm l).length_eq

mutual

/-- The cross-variant order on YamlValue: the derived PartialOrd of the
enum (yaml_value.rs line 12) combined with the hand-written
Mapping::partial_cmp (mapping.rs lines 164-241).  Variants rank
Null < Bool < Number < String < Sequence < Mapping; scalars and
sequences compare structurally; two mappings compare by sorting each
entry list by total_cmp on the keys and lexicographically comparing the
sorted lists by (key, value).  The Rust function returns
Option of Ordering but never returns None on this type, so it is
embedded with result type Ordering. -/
def cmpValue : YamlValue → YamlValue → Ordering
  | .null, .null => .eq
  | .null, _ => .lt
  | _, .null => .gt
  | .bool a, .bool b => cmpOrd a b
  | .bool _, _ => .lt
  | _, .bool _ => .gt
  | .number a, .number b => cmpOrd a b
  | .number _, _ => .lt
  | _, .number _ => .gt
  | .string a, .string b => cmpOrd a b
  | .string _, _ => .lt
  | _, .string _ => .gt
  | .sequence a, .sequence b => cmpList a b
  | .sequence _, _ => .lt
  | _, .sequence _ => .gt
  | .mapping a, .mapping b => cmpPairs (sortEntries a) (sortEntries b)
termination_by a b => sizeOf a + sizeOf b
decreasing_by
  all_goals simp_wf
  all_goals try simp only [sortEntries_sizeOf]
  all_goals omega

/-- Vec lexicographic comparison (derived, shorter-is-less). -/
def cmpList : List YamlValue → List YamlValue → Ordering
  | [], [] => .eq
  | [], _ :: _ => .lt
  | _ :: _, [] => .gt
  | x :: xs, y :: ys => (cmpValue x y).then (cmpList xs ys)
termination_by a b => sizeOf a + sizeOf b
decreasing_by all_goals simp_wf; all_goals omega

/-- Vec of (key, value) pairs lexicographic comparison (derived tuple
order: key first, value as tiebreak; shorter-is-less). -/
def cmpPairs : List (YamlValue × YamlValue) → List (YamlValue × YamlValue) → Ordering
  | [], [] => .eq
  | [], _ :: _ => .lt
  | _ :: _, [] => .gt
  | (k1, v1) :: xs, (k2, v2) :: ys =>
      ((cmpValue k1 k2).then (cmpValue v1 v2)).then (cmpPairs xs ys)
termination_by a b => sizeOf a + sizeOf b
decreasing_by all_goals simp_wf; all_goals omega

end

/-- Canonical form of a value: recursively sort every mapping's entry
list by total_cmp on its (original) keys.  This is a proof device: the
cross-variant order cmpValue coincides with total_cmp taken on
canonical forms, which is how its order laws are established below. -/
def canon (v : YamlValue) : YamlValue :=
  match v with
  | .null => .null
  | .bool b => .bool b
  | .number n => .number n
  | .string s => .string s
  | .sequence xs => .sequence (xs.attach.map (fun x => canon x.1))
  | .mapping m =>
      .mapping ((sortEntries m).attach.map (fun p => (canon p.1.1, canon p.1.2)))
termination_by sizeOf v
decreasing_by
  · simp_wf
    have := List.sizeOf_lt_of_mem x.2
    omega
  · simp_wf
    have h1 : p.1 ∈ m := (sortEntries_perm m).mem_iff.mp p.2
    have h2 := List.sizeOf_lt_of_mem h1
    have h3 : sizeOf p.1.1 < sizeOf p.1 := by
      obtain ⟨a, b⟩ := p.1
      simp only [Prod.mk.sizeOf_spec]
      omega
    omega
  · simp_wf
    have h1 : p.1 ∈ m := (sortEntries_perm m).mem_iff.mp p.2
    have h2 := List.sizeOf_lt_of_mem h1
    have h3 : sizeOf p.1.2 < sizeOf p.1 := by
      obtain ⟨a, b⟩ := p.1
      simp only [Prod.mk.sizeOf_spec]
      omega
    omega

theorem then_swap (o1 o2 : Ordering) :
    (o1.then o2).swap = o1.swap.then o2.swap := by
  cases o1 <;> cases o2 <;> rfl

theorem then_eq_lt_iff (o1 o2 : Ordering) :
    o1.then o2 = Ordering.lt ↔ o1 = Ordering.lt ∨ (o1 = Ordering.eq ∧ o2 = Ordering.lt) := by
  cases o1 <;> cases o2 <;> simp [Ordering.then]

theorem then_eq_eq_iff (o1 o2 : Ordering) :
    o1.then o2 = Ordering.eq ↔ o1 = Ordering.eq ∧ o2 = Ordering.eq := by
  cases o1 <;> cases o2 <;> simp [Ordering.then]

mutual

theorem tcmp_swap (a b : YamlValue) : tcmp b a = (tcmp a b).swap := by
  cases a <;> cases b <;> simp only [tcmp, Ordering.swap]
  case bool.bool x y => exact cmpOrd_swap x y
  case number.number x y => exact cmpOrd_swap x y
  case string.string x y => exact cmpOrd_swap x y
  case sequence.sequence xs ys => exact tcmpL_swap xs ys
  case mapping.mapping m1 m2 => exact tcmpP_swap m1 m2
termination_by sizeOf a + sizeOf b
decreasing_by all_goals simp_wf; all_goals omega

theorem tcmpL_swap (l1 l2 : List YamlValue) : tcmpL l2 l1 = (tcmpL l1 l2).swap := by
  cases l1 <;> cases l2 <;> simp only [tcmpL]
  all_goals try rfl
  case cons.cons x xs y ys =>
    rw [tcmp_swap x y, tcmpL_swap xs ys]
    cases tcmp x y <;> cases tcmpL xs ys <;> rfl
termination_by sizeOf l1 + sizeOf l2
decreasing_by all_goals simp_wf; all_goals omega

theorem tcmpP_swap (l1 l2 : List (YamlValue × YamlValue)) :
    tcmpP l2 l1 = (tcmpP l1 l2).swap := by
  cases l1 with
  | nil =>
      cases l2 with
      | nil => simp [tcmpP, Ordering.swap]
      | cons q qs => simp [tcmpP, Ordering.swap]
  | cons p ps =>
      obtain ⟨k1, v1⟩ := p
      cases l2 with
      | nil => simp [tcmpP, Ordering.swap]
      | cons q qs =>
          obtain ⟨k2, v2⟩ := q
          simp only [tcmpP]
          rw [tcmp_swap k1 k2, tcmp_swap v1 v2, tcmpP_swap ps qs]
          cases tcmp k1 k2 <;> cases tcmp v1 v2 <;> cases tcmpP ps qs <;> rfl
termination_by sizeOf l1 + sizeOf l2
decreasing_by all_goals simp_wf; all_goals omega

end

/-- Pointwise lifting of eq-implies-equal to element lists. -/
theorem tcmpL_eq_of_pointwise :
    ∀ (l1 l2 : List YamlValue),
      (∀ x, x ∈ l1 → ∀ y, y ∈ l2 → tcmp x y = Ordering.eq → x = y) →
      tcmpL l1 l2 = Ordering.eq → l1 = l2 := by
  intro l1
  induction l1 with
  | nil =>
      intro l2 _ h
      cases l2 with
      | nil => rfl
      | cons y ys => exact absurd h (by simp [tcmpL])
  | cons x xs ih =>
      intro l2 hp h
      cases l2 with
      | nil => exact absurd h (by simp [tcmpL])
      | cons y ys =>
          simp only [tcmpL, then_eq_eq_iff] at h
          have hx : x = y := hp x (by simp) y (by simp) h.1
          have hxs : xs = ys :=
            ih ys (fun u hu v hv => hp u (by simp [hu]) v (by simp [hv])) h.2
          rw [hx, hxs]

/-- Pointwise lifting of eq-implies-equal to entry lists. -/
theorem tcmpP_eq_of_pointwise :
    ∀ (l1 l2 : List (YamlValue × YamlValue)),
      (∀ p, p ∈ l1 → ∀ q, q ∈ l2 →
        (tcmp p.1 q.1 = Ordering.eq → p.1 = q.1) ∧
        (tcmp p.2 q.2 = Ordering.eq → p.2 = q.2)) →
      tcmpP l1 l2 = Ordering.eq → l1 = l2 := by
  intro l1
  induction l1 with
  | nil =>
      intro l2 _ h
      cases l2 with
      | nil => rfl
      | cons q qs => exact absurd h (by simp [tcmpP])
  | cons p ps ih =>
      intro l2 hp h
      cases l2 with
      | nil => exact absurd h (by simp [tcmpP])
      | cons q qs =>
          obtain ⟨k1, v1⟩ := p
          obtain ⟨k2, v2⟩ := q
          simp only [tcmpP, then_eq_eq_iff] at h
          have hk : k1 = k2 := (hp (k1, v1) (by simp) (k2, v2) (by simp)).1 h.1.1
          have hv : v1 = v2 := (hp (k1, v1) (by simp) (k2, v2) (by simp)).2 h.1.2
          have hps : ps = qs :=
            ih qs (fun u hu v hv => hp u (by simp [hu]) v (by simp [hv])) h.2
          rw [hk, hv, hps]

theorem tcmp_eq_of_aux :
    ∀ n : Nat, ∀ a b : YamlValue, sizeOf a + sizeOf b ≤ n →
      tcmp a b = Ordering.eq → a = b := by
  intro n
  induction n with
  | zero =>
      intro a b hs _
      exfalso
      have h1 : 0 < sizeOf a := by cases a <;> simp
      omega
  | succ n ih =>
      intro a b hs h
      cases a <;> cases b <;> simp only [tcmp] at h
      all_goals try exact Ordering.noConfusion h
      case null.null => rfl
      case bool.bool x y => rw [(cmpOrd_eq_iff x y).mp h]
      case number.number x y => rw [(cmpOrd_eq_iff x y).mp h]
      case string.string x y => rw [(cmpOrd_eq_iff x y).mp h]
      case sequence.sequence xs ys =>
          simp only [YamlValue.sequence.sizeOf_spec] at hs
          have hxs : xs = ys := by
            apply tcmpL_eq_of_pointwise xs ys _ h
            intro x hx y hy hxy
            have h1 := List.sizeOf_lt_of_mem hx
            have h2 := List.sizeOf_lt_of_mem hy
            exact ih x y (by omega) hxy
          rw [hxs]
      case mapping.mapping m1 m2 =>
          simp only [YamlValue.mapping.sizeOf_spec] at hs
          have hm : m1 = m2 := by
            apply tcmpP_eq_of_pointwise m1 m2 _ h
            intro p hp q hq
            have h1 := List.sizeOf_lt_of_mem hp
            have h2 := List.sizeOf_lt_of_mem hq
            obtain ⟨k1, v1⟩ := p
            obtain ⟨k2, v2⟩ := q
            simp only [Prod.mk.sizeOf_spec] at h1 h2
            constructor
            · exact fun hk => ih k1 k2 (by omega) hk
            · exact fun hv => ih v1 v2 (by omega) hv
          rw [hm]

/-- total_cmp returns eq only on structurally identical arguments. -/
theorem tcmp_eq_of {a b : YamlValue} (h : tcmp a b = Ordering.eq) : a = b :=
  tcmp_eq_of_aux (sizeOf a + sizeOf b) a b le_rfl h

theorem tcmp_refl (a : YamlValue) : tcmp a a = Ordering.eq := by
  have h := tcmp_swap a a
  cases hc : tcmp a a
  · rw [hc] at h; exact absurd h (by decide)
  · rfl
  · rw [hc] at h; exact absurd h (by decide)

/-- Pointwise lifting of lt-transitivity to element lists. -/
theorem tcmpL_trans_pointwise :
    ∀ (l1 l2 l3 : List YamlValue),
      (∀ x, x ∈ l1 → ∀ y, y ∈ l2 → ∀ z, z ∈ l3 →
        tcmp x y = Ordering.lt → tcmp y z = Ordering.lt → tcmp x z = Ordering.lt) →
      tcmpL l1 l2 = Ordering.lt → tcmpL l2 l3 = Ordering.lt →
      tcmpL l1 l3 = Ordering.lt := by
  intro l1
  induction l1 with
  | nil =>
      intro l2 l3 _ h1 h2
      cases l3 with
      | nil =>
          cases l2 with
          | nil => exact absurd h1 (by simp [tcmpL])
          | cons y ys => exact absurd h2 (by simp [tcmpL])
      | cons z zs => simp [tcmpL]
  | cons x xs ih =>
      intro l2 l3 hp h1 h2
      cases l2 with
      | nil => exact absurd h1 (by simp [tcmpL])
      | cons y ys =>
          cases l3 with
          | nil => exact absurd h2 (by simp [tcmpL])
          | cons z zs =>
              simp only [tcmpL, then_eq_lt_iff] at h1 h2 ⊢
              rcases h1 with h1 | ⟨h1e, h1t⟩
              · rcases h2 with h2 | ⟨h2e, h2t⟩
                · exact Or.inl (hp x (by simp) y (by simp) z (by simp) h1 h2)
                · have : y = z := tcmp_eq_of h2e
                  subst this
                  exact Or.inl h1
              · have : x = y := tcmp_eq_of h1e
                subst this
                rcases h2 with h2 | ⟨h2e, h2t⟩
                · exact Or.inl h2
                · have : x = z := tcmp_eq_of h2e
                  subst this
                  refine Or.inr ⟨tcmp_refl x, ?_⟩
                  exact ih ys zs
                    (fun u hu v hv w hw => hp u (by simp [hu]) v (by simp [hv]) w (by simp [hw]))
                    h1t h2t

/-- Pointwise lifting of lt-transitivity to entry lists. -/
theorem tcmpP_trans_pointwise :
    ∀ (l1 l2 l3 : List (YamlValue × YamlValue)),
      (∀ p, p ∈ l1 → ∀ q, q ∈ l2 → ∀ r, r ∈ l3 →
        (tcmp p.1 q.1 = Ordering.lt → tcmp q.1 r.1 = Ordering.lt →
          tcmp p.1 r.1 = Ordering.lt) ∧
        (tcmp p.2 q.2 = Ordering.lt → tcmp q.2 r.2 = Ordering.lt →
          tcmp p.2 r.2 = Ordering.lt)) →
      tcmpP l1 l2 = Ordering.lt → tcmpP l2 l3 = Ordering.lt →
      tcmpP l1 l3 = Ordering.lt := by
  intro l1
  induction l1 with
  | nil =>
      intro l2 l3 _ h1 h2
      cases l3 with
      | nil =>
          cases l2 with
          | nil => exact absurd h1 (by simp [tcmpP])
          | cons q qs => exact absurd h2 (by simp [tcmpP])
      | cons r rs => simp [tcmpP]
  | cons p ps ih =>
      intro l2 l3 hp h1 h2
      cases l2 with
      | nil => exact absurd h1 (by simp [tcmpP])
      | cons q qs =>
          cases l3 with
          | nil => exact absurd h2 (by simp [tcmpP])
          | cons r rs =>
              obtain ⟨k1, v1⟩ := p
              obtain ⟨k2, v2⟩ := q
              obtain ⟨k3, v3⟩ := r
              simp only [tcmpP, then_eq_lt_iff, then_eq_eq_iff] at h1 h2 ⊢
              have hcomp := hp (k1, v1) (by simp) (k2, v2) (by simp) (k3, v3) (by simp)
              rcases h1 with (h1 | ⟨h1e, h1v⟩) | ⟨⟨h1ke, h1ve⟩, h1t⟩
              · rcases h2 with (h2 | ⟨h2e, h2v⟩) | ⟨⟨h2ke, h2ve⟩, h2t⟩
                · exact Or.inl (Or.inl (hcomp.1 h1 h2))
                · have : k2 = k3 := tcmp_eq_of h2e
                  subst this
                  exact Or.inl (Or.inl h1)
                · have : k2 = k3 := tcmp_eq_of h2ke
                  subst this
                  exact Or.inl (Or.inl h1)
              · have : k1 = k2 := tcmp_eq_of h1e
                subst this
                rcases h2 with (h2 | ⟨h2e, h2v⟩) | ⟨⟨h2ke, h2ve⟩, h2t⟩
                · exact Or.inl (Or.inl h2)
                · have : k1 = k3 := tcmp_eq_of h2e
                  subst this
                  exact Or.inl (Or.inr ⟨tcmp_refl k1, hcomp.2 h1v h2v⟩)
                · have : k1 = k3 := tcmp_eq_of h2ke
                  subst this
                  have : v2 = v3 := tcmp_eq_of h2ve
                  subst this
                  exact Or.inl (Or.inr ⟨tcmp_refl k1, h1v⟩)
              · have : k1 = k2 := tcmp_eq_of h1ke
                subst this
                have : v1 = v2 := tcmp_eq_of h1ve
                subst this
                rcases h2 with (h2 | ⟨h2e, h2v⟩) | ⟨⟨h2ke, h2ve⟩, h2t⟩
                · exact Or.inl (Or.inl h2)
                · have : k1 = k3 := tcmp_eq_of h2e
                  subst this
                  exact Or.inl (Or.inr ⟨tcmp_refl k1, h2v⟩)
                · have : k1 = k3 := tcmp_eq_of h2ke
                  subst this
                  have : v1 = v3 := tcmp_eq_of h2ve
                  subst this
                  refine Or.inr ⟨⟨tcmp_refl k1, tcmp_refl v1⟩, ?_⟩
                  exact ih qs rs
                    (fun u hu v hv w hw => hp u (by simp [hu]) v (by simp [hv]) w (by simp [hw]))
                    h1t h2t

theorem tcmp_trans_aux :
    ∀ n : Nat, ∀ a b c : YamlValue,
      sizeOf a + sizeOf b + sizeOf c ≤ n →
      tcmp a b = Ordering.lt → tcmp b c = Ordering.lt →
      tcmp a c = Ordering.lt := by
  intro n
  induction n with
  | zero =>
      intro a b c hs _ _
      exfalso
      have h1 : 0 < sizeOf a := by cases a <;> simp
      omega
  | succ n ih =>
      intro a b c hs h1 h2
      cases a <;> cases b <;> cases c <;> simp only [tcmp] at h1 h2 ⊢
      all_goals try exact Ordering.noConfusion h1
      all_goals try exact Ordering.noConfusion h2
      case bool.bool.bool x y z => exact cmpOrd_trans h1 h2
      case number.number.number x y z => exact cmpOrd_trans h1 h2
      case string.string.string x y z => exact cmpOrd_trans h1 h2
      case sequence.sequence.sequence xs ys zs =>
          simp only [YamlValue.sequence.sizeOf_spec] at hs
          apply tcmpL_trans_pointwise xs ys zs _ h1 h2
          intro x hx y hy z hz hxy hyz
          have s1 := List.sizeOf_lt_of_mem hx
          have s2 := List.sizeOf_lt_of_mem hy
          have s3 := List.sizeOf_lt_of_mem hz
          exact ih x y z (by omega) hxy hyz
      case mapping.mapping.mapping m1 m2 m3 =>
          simp only [YamlValue.mapping.sizeOf_spec] at hs
          apply tcmpP_trans_pointwise m1 m2 m3 _ h1 h2
          intro p hp q hq r hr
          have s1 := List.sizeOf_lt_of_mem hp
          have s2 := List.sizeOf_lt_of_mem hq
          have s3 := List.sizeOf_lt_of_mem hr
          obtain ⟨k1, v1⟩ := p
          obtain ⟨k2, v2⟩ := q
          obtain ⟨k3, v3⟩ := r
          simp only [Prod.mk.sizeOf_spec] at s1 s2 s3
          constructor
          · exact fun ha hb => ih k1 k2 k3 (by omega) ha hb
          · exact fun ha hb => ih v1 v2 v3 (by omega) ha hb

/-- total_cmp is transitive in its strict part. -/
theorem tcmp_trans {a b c : YamlValue} (h1 : tcmp a b = Ordering.lt)
    (h2 : tcmp b c = Ordering.lt) : tcmp a c = Ordering.lt :=
  tcmp_trans_aux (sizeOf a + sizeOf b + sizeOf c) a b c le_rfl h1 h2

theorem canon_null : canon YamlValue.null = YamlValue.null := by
  simp [canon]

theorem canon_bool (b : Bool) : canon (YamlValue.bool b) = YamlValue.bool b := by
  simp [canon]

theorem canon_number (n : Int) : canon (YamlValue.number n) = YamlValue.number n := by
  simp [canon]

theorem canon_string (s : String) :
    canon (YamlValue.string s) = YamlValue.string s := by
  simp [canon]

theorem canon_sequence (xs : List YamlValue) :
    canon (YamlValue.sequence xs) = YamlValue.sequence (xs.map canon) := by
  rw [canon]
  rw [List.attach_map_val xs canon]

theorem canon_mapping (m : List (YamlValue × YamlValue)) :
    canon (YamlValue.mapping m) =
      YamlValue.mapping
        ((sortEntries m).map (fun p => (canon p.1, canon p.2))) := by
  rw [canon]
  rw [List.attach_map_val (sortEntries m) (fun p => (canon p.1, canon p.2))]

/-- Pointwise reduction of the derived sequence comparison to total_cmp
on canonical forms. -/
theorem cmpList_eq_tcmpL_pointwise :
    ∀ (l1 l2 : List YamlValue),
      (∀ x, x ∈ l1 → ∀ y, y ∈ l2 → cmpValue x y = tcmp (canon x) (canon y)) →
      cmpList l1 l2 = tcmpL (l1.map canon) (l2.map canon) := by
  intro l1
  induction l1 with
  | nil =>
      intro l2 _
      cases l2 <;> simp [cmpList, tcmpL]
  | cons x xs ih =>
      intro l2 hp
      cases l2 with
      | nil => simp [cmpList, tcmpL]
      | cons y ys =>
          simp only [cmpList, List.map_cons, tcmpL]
          rw [hp x (by simp) y (by simp),
            ih ys (fun u hu v hv => hp u (by simp [hu]) v (by simp [hv]))]

/-- Pointwise reduction of the derived entry-list comparison to
total_cmp on canonical forms. -/
theorem cmpPairs_eq_tcmpP_pointwise :
    ∀ (l1 l2 : List (YamlValue × YamlValue)),
      (∀ p, p ∈ l1 → ∀ q, q ∈ l2 →
        cmpValue p.1 q.1 = tcmp (canon p.1) (canon q.1) ∧
        cmpValue p.2 q.2 = tcmp (canon p.2) (canon q.2)) →
      cmpPairs l1 l2 =
        tcmpP (l1.map (fun p => (canon p.1, canon p.2)))
          (l2.map (fun p => (canon p.1, canon p.2))) := by
  intro l1
  induction l1 with
  | nil =>
      intro l2 _
      cases l2 with
      | nil => simp [cmpPairs, tcmpP]
      | cons q qs => simp [cmpPairs, tcmpP]
  | cons p ps ih =>
      intro l2 hp
      cases l2 with
      | nil => simp [cmpPairs, tcmpP]
      | cons q qs =>
          obtain ⟨k1, v1⟩ := p
          obtain ⟨k2, v2⟩ := q
          simp only [cmpPairs, List.map_cons, tcmpP]
          have hc := hp (k1, v1) (by simp) (k2, v2) (by simp)
          rw [hc.1, hc.2,
            ih qs (fun u hu v hv => hp u (by simp [hu]) v (by simp [hv]))]

theorem cmpValue_eq_tcmp_canon_aux :
    ∀ n : Nat, ∀ a b : YamlValue, sizeOf a + sizeOf b ≤ n →
      cmpValue a b = tcmp (canon a) (canon b) := by
  intro n
  induction n with
  | zero =>
      intro a b hs
      exfalso
      have h1 : 0 < sizeOf a := by cases a <;> simp
      omega
  | succ n ih =>
      intro a b hs
      cases a <;> cases b <;>
        simp only [cmpValue, canon_null, canon_bool, canon_number, canon_string,
          canon_sequence, canon_mapping, tcmp]
      case sequence.sequence xs ys =>
          simp only [YamlValue.sequence.sizeOf_spec] at hs
          apply cmpList_eq_tcmpL_pointwise xs ys
          intro x hx y hy
          have h1 := List.sizeOf_lt_of_mem hx
          have h2 := List.sizeOf_lt_of_mem hy
          exact ih x y (by omega)
      case mapping.mapping m1 m2 =>
          simp only [YamlValue.mapping.sizeOf_spec] at hs
          apply cmpPairs_eq_tcmpP_pointwise (sortEntries m1) (sortEntries m2)
          intro p hp q hq
          have hp1 : p ∈ m1 := (sortEntries_perm m1).mem_iff.mp hp
          have hq1 : q ∈ m2 := (sortEntries_perm m2).mem_iff.mp hq
          have h1 := List.sizeOf_lt_of_mem hp1
          have h2 := List.sizeOf_lt_of_mem hq1
          obtain ⟨k1, v1⟩ := p
          obtain ⟨k2, v2⟩ := q
          simp only [Prod.mk.sizeOf_spec] at h1 h2
          constructor
          · exact ih k1 k2 (by omega)
          · exact ih v1 v2 (by omega)

/-- The cross-variant order equals total_cmp taken on canonical forms. -/
theorem cmpValue_eq_tcmp_canon (a b : YamlValue) :
    cmpValue a b = tcmp (canon a) (canon b) :=
  cmpValue_eq_tcmp_canon_aux (sizeOf a + sizeOf b) a b le_rfl

theorem cmpValue_swap (a b : YamlValue) : cmpValue b a = (cmpValue a b).swap := by
  rw [cmpValue_eq_tcmp_canon, cmpValue_eq_tcmp_canon, tcmp_swap]

theorem cmpValue_trans {a b c : YamlValue} (h1 : cmpValue a b = Ordering.lt)
    (h2 : cmpValue b c = Ordering.lt) : cmpValue a c = Ordering.lt := by
  rw [cmpValue_eq_tcmp_canon] at h1 h2 ⊢
  exact tcmp_trans h1 h2

theorem cmpValue_eq_canon {a b : YamlValue} (h : cmpValue a b = Ordering.eq) :
    canon a = canon b := by
  rw [cmpValue_eq_tcmp_canon] at h
  exact tcmp_eq_of h

theorem cmpValue_refl (a : YamlValue) : cmpValue a a = Ordering.eq := by
  rw [cmpValue_eq_tcmp_canon]
  exact tcmp_refl (canon a)

/-- No entry of the list has a key Rust-equal (in either direction) to k. -/
def freshKey (k : YamlValue) : List (YamlValue × YamlValue) → Bool
  | [] => true
  | p :: rest => !beqV k p.1 && !beqV p.1 k && freshKey k rest

/-- The keys of the entry list are pairwise Rust-unequal: the invariant
IndexMap maintains by construction. -/
def distinctKeys : List (YamlValue × YamlValue) → Bool
  | [] => true
  | p :: rest => freshKey p.1 rest && distinctKeys rest

mutual

/-- A value is constructible by the program: every Mapping layer in it
has pairwise Rust-unequal keys (which IndexMap guarantees). -/
def validKeys : YamlValue → Bool
  | .null => true
  | .bool _ => true
  | .number _ => true
  | .string _ => true
  | .sequence xs => validKeysL xs
  | .mapping m => distinctKeys m && validKeysP m
termination_by v => sizeOf v
decreasing_by all_goals simp_wf; all_goals omega

def validKeysL : List YamlValue → Bool
  | [] => true
  | x :: xs => validKeys x && validKeysL xs
termination_by l => sizeOf l
decreasing_by all_goals simp_wf; all_goals omega

def validKeysP : List (YamlValue × YamlValue) → Bool
  | [] => true
  | (k, v) :: rest => validKeys k && validKeys v && validKeysP rest
termination_by l => sizeOf l
decreasing_by all_goals simp_wf; all_goals omega

end

/-- The first entry of the list whose key is Rust-equal to k (what
IndexMap get locates). -/
def firstMatch (k : YamlValue) :
    List (YamlValue × YamlValue) → Option (YamlValue × YamlValue)
  | [] => none
  | p :: rest => if beqV k p.1 then some p else firstMatch k rest

theorem lookupBeq_eq_firstMatch (k v : YamlValue) :
    ∀ l : List (YamlValue × YamlValue),
      lookupBeq k v l = match firstMatch k l with
        | some p => beqV v p.2
        | none => false := by
  intro l
  induction l with
  | nil => simp [lookupBeq, firstMatch]
  | cons p rest ih =>
      obtain ⟨k2, v2⟩ := p
      by_cases h : beqV k k2 <;> simp [lookupBeq, firstMatch, h, ih]

theorem firstMatch_mem {k : YamlValue} {l : List (YamlValue × YamlValue)}
    {p : YamlValue × YamlValue} (h : firstMatch k l = some p) :
    p ∈ l ∧ beqV k p.1 = true := by
  induction l with
  | nil => simp [firstMatch] at h
  | cons q rest ih =>
      by_cases hq : beqV k q.1
      · simp only [firstMatch, hq, if_pos] at h
        cases h
        exact ⟨List.mem_cons_self _ _, hq⟩
      · simp only [firstMatch, hq, if_neg, Bool.false_eq_true, not_false_iff] at h
        obtain ⟨hm, hb⟩ := ih h
        exact ⟨List.mem_cons_of_mem _ hm, hb⟩

theorem firstMatch_of_mem {k : YamlValue} {l : List (YamlValue × YamlValue)}
    {p : YamlValue × YamlValue} (hm : p ∈ l) (hb : beqV k p.1 = true) :
    ∃ q, firstMatch k l = some q := by
  induction l with
  | nil => simp at hm
  | cons r rest ih =>
      by_cases hr : beqV k r.1
      · exact ⟨r, by simp [firstMatch, hr]⟩
      · rcases List.mem_cons.mp hm with h | h
        · rw [← h] at hr; exact absurd hb hr
        · obtain ⟨q, hq⟩ := ih h
          exact ⟨q, by simp [firstMatch, hr, hq]⟩

theorem subMap_iff (l b : List (YamlValue × YamlValue)) :
    subMap l b = true ↔ ∀ p ∈ l, lookupBeq p.1 p.2 b = true := by
  induction l with
  | nil => simp [subMap]
  | cons p rest ih =>
      obtain ⟨k, v⟩ := p
      simp [subMap, Bool.and_eq_true, ih]

theorem lookupBeq_elim {k v : YamlValue} {b : List (YamlValue × YamlValue)}
    (h : lookupBeq k v b = true) :
    ∃ q, firstMatch k b = some q ∧ q ∈ b ∧ beqV k q.1 = true ∧ beqV v q.2 = true := by
  rw [lookupBeq_eq_firstMatch] at h
  cases hf : firstMatch k b with
  | none => rw [hf] at h; exact Bool.noConfusion h
  | some q =>
      rw [hf] at h
      obtain ⟨hm, hb⟩ := firstMatch_mem hf
      exact ⟨q, rfl, hm, hb, h⟩

theorem freshKey_mem {k : YamlValue} :
    ∀ {l : List (YamlValue × YamlValue)}, freshKey k l = true →
      ∀ q ∈ l, beqV k q.1 = false ∧ beqV q.1 k = false := by
  intro l
  induction l with
  | nil => intro _ q hq; simp at hq
  | cons r rest ih =>
      intro hf q hq
      simp only [freshKey, Bool.and_eq_true, Bool.not_eq_true'] at hf
      rcases List.mem_cons.mp hq with h | h
      · rw [h]; exact ⟨hf.1.1, hf.1.2⟩
      · exact ih hf.2 q h

theorem distinct_ne_keys :
    ∀ {l : List (YamlValue × YamlValue)}, distinctKeys l = true →
      ∀ p ∈ l, ∀ q ∈ l, p ≠ q → beqV p.1 q.1 = false := by
  intro l
  induction l with
  | nil => intro _ p hp; simp at hp
  | cons r rest ih =>
      intro hd p hp q hq hne
      simp only [distinctKeys, Bool.and_eq_true] at hd
      rcases List.mem_cons.mp hp with h1 | h1 <;> rcases List.mem_cons.mp hq with h2 | h2
      · exact absurd (h1.trans h2.symm) hne
      · rw [h1]; exact (freshKey_mem hd.1 q h2).1
      · rw [h2]; exact (freshKey_mem hd.1 p h1).2
      · exact ih hd.2 p h1 q h2 hne

theorem distinct_mem_unique {l : List (YamlValue × YamlValue)}
    (hd : distinctKeys l = true) {p q : YamlValue × YamlValue}
    (hp : p ∈ l) (hq : q ∈ l) (hb : beqV p.1 q.1 = true) : p = q := by
  by_cases h : p = q
  · exact h
  · rw [distinct_ne_keys hd p hp q hq h] at hb
    exact Bool.noConfusion hb

theorem validKeysL_mem :
    ∀ {l : List YamlValue}, validKeysL l = true → ∀ x ∈ l, validKeys x = true := by
  intro l
  induction l with
  | nil => intro _ x hx; simp at hx
  | cons y ys ih =>
      intro hv x hx
      simp only [validKeysL, Bool.and_eq_true] at hv
      rcases List.mem_cons.mp hx with h | h
      · rw [h]; exact hv.1
      · exact ih hv.2 x h

theorem validKeysP_mem :
    ∀ {l : List (YamlValue × YamlValue)}, validKeysP l = true →
      ∀ p ∈ l, validKeys p.1 = true ∧ validKeys p.2 = true := by
  intro l
  induction l with
  | nil => intro _ p hp; simp at hp
  | cons q qs ih =>
      intro hv p hp
      obtain ⟨k, v⟩ := q
      simp only [validKeysP, Bool.and_eq_true] at hv
      rcases List.mem_cons.mp hp with h | h
      · rw [h]; exact ⟨hv.1.1, hv.1.2⟩
      · exact ih hv.2 p h

theorem distinct_nodup {l : List (YamlValue × YamlValue)}
    (hd : distinctKeys l = true)
    (hrefl : ∀ p ∈ l, beqV p.1 p.1 = true) : l.Nodup := by
  induction l with
  | nil => exact List.nodup_nil
  | cons r rest ih =>
      simp only [distinctKeys, Bool.and_eq_true] at hd
      refine List.Nodup.cons ?_ (ih hd.2 (fun p hp => hrefl p (List.mem_cons_of_mem _ hp)))
      intro hmem
      have := (freshKey_mem hd.1 r hmem).1
      rw [hrefl r (List.mem_cons_self _ _)] at this
      exact Bool.noConfusion this

/-- Given a proven uniqueness property, a Rust-equal entry in a
distinct-keyed list makes the lookup succeed. -/
theorem lookupBeq_of_mem_unique {l : List (YamlValue × YamlValue)}
    {k v : YamlValue} {q : YamlValue × YamlValue}
    (hd : distinctKeys l = true) (hq : q ∈ l)
    (hk : beqV k q.1 = true) (hv : beqV v q.2 = true)
    (huniq : ∀ r ∈ l, beqV k r.1 = true → beqV r.1 q.1 = true) :
    lookupBeq k v l = true := by
  obtain ⟨q', hfm⟩ := firstMatch_of_mem hq hk
  obtain ⟨hq'm, hq'b⟩ := firstMatch_mem hfm
  have heq : q' = q := distinct_mem_unique hd hq'm hq (huniq q' hq'm hq'b)
  rw [lookupBeq_eq_firstMatch, hfm, heq]
  exact hv

theorem beqL_symm_pointwise :
    ∀ (l1 l2 : List YamlValue),
      (∀ x ∈ l1, ∀ y ∈ l2, beqV x y = true → beqV y x = true) →
      beqL l1 l2 = true → beqL l2 l1 = true := by
  intro l1
  induction l1 with
  | nil =>
      intro l2 _ h
      cases l2 with
      | nil => exact h
      | cons y ys => simp [beqL] at h
  | cons x xs ih =>
      intro l2 hp h
      cases l2 with
      | nil => simp [beqL] at h
      | cons y ys =>
          simp only [beqL, Bool.and_eq_true] at h ⊢
          exact ⟨hp x (by simp) y (by simp) h.1,
            ih ys (fun u hu v hv => hp u (by simp [hu]) v (by simp [hv])) h.2⟩

theorem beqL_trans_pointwise :
    ∀ (l1 l2 l3 : List YamlValue),
      (∀ x ∈ l1, ∀ y ∈ l2, ∀ z ∈ l3,
        beqV x y = true → beqV y z = true → beqV x z = true) →
      beqL l1 l2 = true → beqL l2 l3 = true → beqL l1 l3 = true := by
  intro l1
  induction l1 with
  | nil =>
      intro l2 l3 _ h1 h2
      cases l2 with
      | nil => exact h2
      | cons y ys => simp [beqL] at h1
  | cons x xs ih =>
      intro l2 l3 hp h1 h2
      cases l2 with
      | nil => simp [beqL] at h1
      | cons y ys =>
          cases l3 with
          | nil => simp [beqL] at h2
          | cons z zs =>
              simp only [beqL, Bool.and_eq_true] at h1 h2 ⊢
              exact ⟨hp x (by simp) y (by simp) z (by simp) h1.1 h2.1,
                ih ys zs
                  (fun u hu v hv w hw =>
                    hp u (by simp [hu]) v (by simp [hv]) w (by simp [hw]))
                  h1.2 h2.2⟩

theorem beqL_of_map_canon :
    ∀ (l1 l2 : List YamlValue),
      (∀ x ∈ l1, ∀ y ∈ l2, canon x = canon y → beqV x y = true) →
      l1.map canon = l2.map canon → beqL l1 l2 = true := by
  intro l1
  induction l1 with
  | nil =>
      intro l2 _ h
      cases l2 with
      | nil => simp [beqL]
      | cons y ys => simp at h
  | cons x xs ih =>
      intro l2 hp h
      cases l2 with
      | nil => simp at h
      | cons y ys =>
          simp only [List.map_cons, List.cons.injEq] at h
          simp only [beqL, Bool.and_eq_true]
          exact ⟨hp x (by simp) y (by simp) h.1,
            ih ys (fun u hu v hv => hp u (by simp [hu]) v (by simp [hv])) h.2⟩

/-- The entry of b that IndexMap get locates for p's key (total
function; the default is irrelevant, it is used only where a match is
known to exist). -/
def matchOf (b : List (YamlValue × YamlValue)) (p : YamlValue × YamlValue) :
    YamlValue × YamlValue :=
  (firstMatch p.1 b).getD p

theorem sizeOf_fst_lt (p : YamlValue × YamlValue) : sizeOf p.1 < sizeOf p := by
  obtain ⟨a, b⟩ := p
  simp only [Prod.mk.sizeOf_spec]
  omega

theorem sizeOf_snd_lt (p : YamlValue × YamlValue) : sizeOf p.2 < sizeOf p := by
  obtain ⟨a, b⟩ := p
  simp only [Prod.mk.sizeOf_spec]
  omega

/-- Rust == on constructible values is symmetric and transitive, and is
implied by equality of canonical forms.  Proven simultaneously by
strong induction on a uniform size bound. -/
theorem beqLaws : ∀ n : Nat,
    (∀ a b : YamlValue, sizeOf a ≤ n → sizeOf b ≤ n →
      validKeys a = true → validKeys b = true →
      beqV a b = true → beqV b a = true) ∧
    (∀ a b c : YamlValue, sizeOf a ≤ n → sizeOf b ≤ n → sizeOf c ≤ n →
      validKeys a = true → validKeys b = true → validKeys c = true →
      beqV a b = true → beqV b c = true → beqV a c = true) ∧
    (∀ a b : YamlValue, sizeOf a ≤ n → sizeOf b ≤ n →
      validKeys a = true → validKeys b = true →
      canon a = canon b → beqV a b = true) := by
  intro n
  induction n with
  | zero =>
      have hpos : ∀ v : YamlValue, 0 < sizeOf v := by intro v; cases v <;> simp
      refine ⟨?_, ?_, ?_⟩
      · intro a b ha _ _ _ _; exact absurd ha (by have := hpos a; omega)
      · intro a b c ha _ _ _ _ _ _ _; exact absurd ha (by have := hpos a; omega)
      · intro a b ha _ _ _ _; exact absurd ha (by have := hpos a; omega)
  | succ n ih =>
      obtain ⟨ihS, ihT, ihE⟩ := ih
      have memszL : ∀ (l : List YamlValue) (x : YamlValue),
          x ∈ l → sizeOf l ≤ n → sizeOf x ≤ n := by
        intro l x hx hl
        have := List.sizeOf_lt_of_mem hx
        omega
      have memszP : ∀ (m : List (YamlValue × YamlValue)) (p : YamlValue × YamlValue),
          p ∈ m → sizeOf m ≤ n → sizeOf p.1 ≤ n ∧ sizeOf p.2 ≤ n := by
        intro m p hp hm
        have h1 := List.sizeOf_lt_of_mem hp
        have h2 := sizeOf_fst_lt p
        have h3 := sizeOf_snd_lt p
        omega
      -- key-side refl, available at bound n via the E component
      have hrefl : ∀ v : YamlValue, sizeOf v ≤ n → validKeys v = true →
          beqV v v = true := fun v hv hval => ihE v v hv hv hval hval rfl
      refine ⟨?_, ?_, ?_⟩
      -- ===== symmetry =====
      · intro a b ha hb va vb h
        cases a <;> cases b <;> simp only [beqV] at h ⊢
        all_goals try rfl
        all_goals try exact Bool.noConfusion h
        case bool.bool x y => rw [beq_iff_eq] at h ⊢; exact h.symm
        case number.number x y => rw [beq_iff_eq] at h ⊢; exact h.symm
        case string.string x y => rw [beq_iff_eq] at h ⊢; exact h.symm
        case sequence.sequence xs ys =>
            simp only [YamlValue.sequence.sizeOf_spec] at ha hb
            simp only [validKeys] at va vb
            apply beqL_symm_pointwise xs ys _ h
            intro x hx y hy hxy
            exact ihS x y (memszL xs x hx (by omega)) (memszL ys y hy (by omega))
              (validKeysL_mem va x hx) (validKeysL_mem vb y hy) hxy
        case mapping.mapping m1 m2 =>
            simp only [YamlValue.mapping.sizeOf_spec] at ha hb
            have hm1 : sizeOf m1 ≤ n := by omega
            have hm2 : sizeOf m2 ≤ n := by omega
            simp only [validKeys, Bool.and_eq_true] at va vb
            obtain ⟨hd1, hp1⟩ := va
            obtain ⟨hd2, hp2⟩ := vb
            rw [Bool.and_eq_true] at h ⊢
            obtain ⟨hlen, hsub⟩ := h
            rw [beq_iff_eq] at hlen
            rw [subMap_iff] at hsub
            have hmatch : ∀ p ∈ m1, matchOf m2 p ∈ m2 ∧
                beqV p.1 (matchOf m2 p).1 = true ∧
                beqV p.2 (matchOf m2 p).2 = true := by
              intro p hp
              obtain ⟨q', hfm, hmem, hk, hv⟩ := lookupBeq_elim (hsub p hp)
              unfold matchOf
              rw [hfm]
              exact ⟨hmem, hk, hv⟩
            have hinj : ∀ p ∈ m1, ∀ p' ∈ m1, matchOf m2 p = matchOf m2 p' → p = p' := by
              intro p hp p' hp' he
              obtain ⟨hqm, hk, _⟩ := hmatch p hp
              obtain ⟨hq'm, hk', _⟩ := hmatch p' hp'
              rw [he] at hk
              have s1 := memszP m1 p hp hm1
              have s2 := memszP m1 p' hp' hm1
              have s3 := memszP m2 (matchOf m2 p') hq'm hm2
              have vk1 := validKeysP_mem hp1 p hp
              have vk2 := validKeysP_mem hp1 p' hp'
              have vk3 := validKeysP_mem hp2 (matchOf m2 p') hq'm
              have hback : beqV (matchOf m2 p').1 p'.1 = true :=
                ihS p'.1 (matchOf m2 p').1 s2.1 s3.1 vk2.1 vk3.1 hk'
              have hpp' : beqV p.1 p'.1 = true :=
                ihT p.1 (matchOf m2 p').1 p'.1 s1.1 s3.1 s2.1 vk1.1 vk3.1 vk2.1
                  hk hback
              exact distinct_mem_unique hd1 hp hp' hpp'
            have hnodup1 : m1.Nodup := by
              apply distinct_nodup hd1
              intro p hp
              exact hrefl p.1 (memszP m1 p hp hm1).1 (validKeysP_mem hp1 p hp).1
            have himg : (m1.map (matchOf m2)).Nodup :=
              List.Nodup.map_on hinj hnodup1
            have hsubset : m1.map (matchOf m2) ⊆ m2 := by
              intro q hq
              obtain ⟨p, hp, he⟩ := List.mem_map.mp hq
              rw [← he]
              exact (hmatch p hp).1
            have hperm : List.Perm (m1.map (matchOf m2)) m2 :=
              (List.subperm_of_subset himg hsubset).perm_of_length_le
                (by simp [hlen])
            refine ⟨by rw [beq_iff_eq]; exact hlen.symm, ?_⟩
            rw [subMap_iff]
            intro q hq
            have hqimg : q ∈ m1.map (matchOf m2) := hperm.mem_iff.mpr hq
            obtain ⟨p, hp, hpq⟩ := List.mem_map.mp hqimg
            obtain ⟨hqm, hk, hv⟩ := hmatch p hp
            rw [hpq] at hk hv
            have s1 := memszP m1 p hp hm1
            have s2 := memszP m2 q hq hm2
            have vk1 := validKeysP_mem hp1 p hp
            have vk2 := validKeysP_mem hp2 q hq
            have hk' : beqV q.1 p.1 = true := ihS p.1 q.1 s1.1 s2.1 vk1.1 vk2.1 hk
            have hv' : beqV q.2 p.2 = true := ihS p.2 q.2 s1.2 s2.2 vk1.2 vk2.2 hv
            apply lookupBeq_of_mem_unique hd1 hp hk' hv'
            intro r hr hbr
            have s3 := memszP m1 r hr hm1
            have vk3 := validKeysP_mem hp1 r hr
            have h1 : beqV r.1 q.1 = true := ihS q.1 r.1 s2.1 s3.1 vk2.1 vk3.1 hbr
            exact ihT r.1 q.1 p.1 s3.1 s2.1 s1.1 vk3.1 vk2.1 vk1.1 h1 hk'
      -- ===== transitivity =====
      · intro a b c ha hb hc va vb vc h1 h2
        cases a <;> cases b <;> cases c <;> simp only [beqV] at h1 h2 ⊢
        all_goals try rfl
        all_goals try exact Bool.noConfusion h1
        all_goals try exact Bool.noConfusion h2
        case bool.bool.bool x y z =>
            rw [beq_iff_eq] at h1 h2 ⊢; exact h1.trans h2
        case number.number.number x y z =>
            rw [beq_iff_eq] at h1 h2 ⊢; exact h1.trans h2
        case string.string.string x y z =>
            rw [beq_iff_eq] at h1 h2 ⊢; exact h1.trans h2
        case sequence.sequence.sequence xs ys zs =>
            simp only [YamlValue.sequence.sizeOf_spec] at ha hb hc
            simp only [validKeys] at va vb vc
            apply beqL_trans_pointwise xs ys zs _ h1 h2
            intro x hx y hy z hz hxy hyz
            exact ihT x y z (memszL xs x hx (by omega)) (memszL ys y hy (by omega))
              (memszL zs z hz (by omega)) (validKeysL_mem va x hx)
              (validKeysL_mem vb y hy) (validKeysL_mem vc z hz) hxy hyz
        case mapping.mapping.mapping m1 m2 m3 =>
            simp only [YamlValue.mapping.sizeOf_spec] at ha hb hc
            have hm1 : sizeOf m1 ≤ n := by omega
            have hm2 : sizeOf m2 ≤ n := by omega
            have hm3 : sizeOf m3 ≤ n := by omega
            simp only [validKeys, Bool.and_eq_true] at va vb vc
            obtain ⟨hd1, hp1⟩ := va
            obtain ⟨hd2, hp2⟩ := vb
            obtain ⟨hd3, hp3⟩ := vc
            rw [Bool.and_eq_true] at h1 h2 ⊢
            obtain ⟨hlen1, hsub1⟩ := h1
            obtain ⟨hlen2, hsub2⟩ := h2
            rw [beq_iff_eq] at hlen1 hlen2
            rw [subMap_iff] at hsub1 hsub2
            refine ⟨by rw [beq_iff_eq]; exact hlen1.trans hlen2, ?_⟩
            rw [subMap_iff]
            intro p hp
            obtain ⟨q', hfm1, hqm, hk1, hv1⟩ := lookupBeq_elim (hsub1 p hp)
            obtain ⟨r', hfm2, hrm, hk2, hv2⟩ := lookupBeq_elim (hsub2 q' hqm)
            have s1 := memszP m1 p hp hm1
            have s2 := memszP m2 q' hqm hm2
            have s3 := memszP m3 r' hrm hm3
            have vk1 := validKeysP_mem hp1 p hp
            have vk2 := validKeysP_mem hp2 q' hqm
            have vk3 := validKeysP_mem hp3 r' hrm
            have hk : beqV p.1 r'.1 = true :=
              ihT p.1 q'.1 r'.1 s1.1 s2.1 s3.1 vk1.1 vk2.1 vk3.1 hk1 hk2
            have hv : beqV p.2 r'.2 = true :=
              ihT p.2 q'.2 r'.2 s1.2 s2.2 s3.2 vk1.2 vk2.2 vk3.2 hv1 hv2
            apply lookupBeq_of_mem_unique hd3 hrm hk hv
            intro s hs hbs
            have s4 := memszP m3 s hs hm3
            have vk4 := validKeysP_mem hp3 s hs
            have hsp : beqV s.1 p.1 = true :=
              ihS p.1 s.1 s1.1 s4.1 vk1.1 vk4.1 hbs
            exact ihT s.1 p.1 r'.1 s4.1 s1.1 s3.1 vk4.1 vk1.1 vk3.1 hsp hk
      -- ===== canonical equality implies == =====
      · intro a b ha hb va vb hcan
        cases a <;> cases b <;>
          simp only [canon_null, canon_bool, canon_number, canon_string,
            canon_sequence, canon_mapping] at hcan <;>
          simp only [beqV]
        all_goals try exact YamlValue.noConfusion hcan
        case bool.bool x y =>
            rw [beq_iff_eq]
            exact (YamlValue.bool.injEq x y).mp hcan
        case number.number x y =>
            rw [beq_iff_eq]
            exact (YamlValue.number.injEq x y).mp hcan
        case string.string x y =>
            rw [beq_iff_eq]
            exact (YamlValue.string.injEq x y).mp hcan
        case sequence.sequence xs ys =>
            simp only [YamlValue.sequence.sizeOf_spec] at ha hb
            simp only [validKeys] at va vb
            rw [YamlValue.sequence.injEq] at hcan
            apply beqL_of_map_canon xs ys _ hcan
            intro x hx y hy hxy
            exact ihE x y (memszL xs x hx (by omega)) (memszL ys y hy (by omega))
              (validKeysL_mem va x hx) (validKeysL_mem vb y hy) hxy
        case mapping.mapping m1 m2 =>
            simp only [YamlValue.mapping.sizeOf_spec] at ha hb
            have hm1 : sizeOf m1 ≤ n := by omega
            have hm2 : sizeOf m2 ≤ n := by omega
            simp only [validKeys, Bool.and_eq_true] at va vb
            obtain ⟨hd1, hp1⟩ := va
            obtain ⟨hd2, hp2⟩ := vb
            rw [YamlValue.mapping.injEq] at hcan
            have hlen : m1.length = m2.length := by
              have := congrArg List.length hcan
              simpa [sortEntries_length] using this
            rw [Bool.and_eq_true]
            refine ⟨by rw [beq_iff_eq]; exact hlen, ?_⟩
            rw [subMap_iff]
            intro p hp
            have hps : p ∈ sortEntries m1 := (sortEntries_perm m1).mem_iff.mpr hp
            obtain ⟨i, hi, hgi⟩ := List.getElem_of_mem hps
            have hilen : i < (sortEntries m2).length := by
              rw [sortEntries_length, ← hlen, ← sortEntries_length m1]
              exact hi
            have hq : (sortEntries m2)[i] ∈ m2 :=
              (sortEntries_perm m2).mem_iff.mp (List.getElem_mem hilen)
            have hpair : (canon p.1, canon p.2) =
                (canon ((sortEntries m2)[i]).1, canon ((sortEntries m2)[i]).2) := by
              have hmi : i < ((sortEntries m1).map
                  (fun r => (canon r.1, canon r.2))).length := by
                simpa using hi
              have h1 := List.getElem_of_eq hcan hmi
              rw [List.getElem_map, List.getElem_map] at h1
              rw [hgi] at h1
              exact h1
            set q := (sortEntries m2)[i] with hqdef
            have s1 := memszP m1 p hp hm1
            have s2 := memszP m2 q hq hm2
            have vk1 := validKeysP_mem hp1 p hp
            have vk2 := validKeysP_mem hp2 q hq
            have hk : beqV p.1 q.1 = true :=
              ihE p.1 q.1 s1.1 s2.1 vk1.1 vk2.1 (congrArg Prod.fst hpair)
            have hv : beqV p.2 q.2 = true :=
              ihE p.2 q.2 s1.2 s2.2 vk1.2 vk2.2 (congrArg Prod.snd hpair)
            apply lookupBeq_of_mem_unique hd2 hq hk hv
            intro r hr hbr
            have s3 := memszP m2 r hr hm2
            have vk3 := validKeysP_mem hp2 r hr
            have h1 : beqV r.1 p.1 = true :=
              ihS p.1 r.1 s1.1 s3.1 vk1.1 vk3.1 hbr
            exact ihT r.1 p.1 q.1 s3.1 s1.1 s2.1 vk3.1 vk1.1 vk2.1 h1 hk

theorem beqV_refl (a : YamlValue) (hv : validKeys a = true) : beqV a a = true :=
  ((beqLaws (sizeOf a)).2.2) a a le_rfl le_rfl hv hv rfl

theorem beqV_symm {a b : YamlValue} (hva : validKeys a = true)
    (hvb : validKeys b = true) (h : beqV a b = true) : beqV b a = true :=
  ((beqLaws (sizeOf a + sizeOf b)).1) a b (by omega) (by omega) hva hvb h

theorem beqV_trans {a b c : YamlValue} (hva : validKeys a = true)
    (hvb : validKeys b = true) (hvc : validKeys c = true)
    (h1 : beqV a b = true) (h2 : beqV b c = true) : beqV a c = true :=
  ((beqLaws (sizeOf a + sizeOf b + sizeOf c)).2.1) a b c (by omega) (by omega)
    (by omega) hva hvb hvc h1 h2

theorem beqV_of_canon_eq {a b : YamlValue} (hva : validKeys a = true)
    (hvb : validKeys b = true) (h : canon a = canon b) : beqV a b = true :=
  ((beqLaws (sizeOf a + sizeOf b)).2.2) a b (by omega) (by omega) hva hvb h

theorem insertPair_fresh {m : List (YamlValue × YamlValue)} {k v : YamlValue}
    (hf : ∀ q ∈ m, beqV k q.1 = false) :
    insertPair m k v = m ++ [(k, v)] := by
  induction m with
  | nil => rfl
  | cons q rest ih =>
      obtain ⟨k2, v2⟩ := q
      have hk : beqV k k2 = false := hf (k2, v2) (by simp)
      simp only [insertPair, hk, Bool.false_eq_true, if_false, List.cons_append,
        List.cons.injEq, true_and]
      exact ih (fun r hr => hf r (by simp [hr]))

theorem buildMap_go :
    ∀ (l acc : List (YamlValue × YamlValue)), distinctKeys l = true →
      (∀ p ∈ l, ∀ q ∈ acc, beqV p.1 q.1 = false) →
      List.foldl (fun acc p => insertPair acc p.1 p.2) acc l = acc ++ l := by
  intro l
  induction l with
  | nil => intro acc _ _; simp
  | cons p rest ih =>
      intro acc hd hf
      simp only [distinctKeys, Bool.and_eq_true] at hd
      simp only [List.foldl_cons]
      have hstep : insertPair acc p.1 p.2 = acc ++ [p] := by
        rw [insertPair_fresh (fun q hq => hf p (by simp) q hq)]
      rw [hstep, ih (acc ++ [p]) hd.2 ?_]
      · simp
      · intro p' hp' q hq
        rcases List.mem_append.mp hq with h | h
        · exact hf p' (by simp [hp']) q h
        · rw [List.mem_singleton.mp h]
          exact (freshKey_mem hd.1 p' hp').2

/-- With pairwise-distinct keys, building a map by repeated insertion
reproduces exactly the input sequence: the iteration order is the
insertion order. -/
theorem buildMap_eq_self {l : List (YamlValue × YamlValue)}
    (hd : distinctKeys l = true) : buildMap l = l := by
  have := buildMap_go l [] hd (by intro p _ q hq; simp at hq)
  simpa [buildMap] using this

/-- Rust == on Mapping (the derived PartialEq delegating to IndexMap
equality): lengths agree and every entry of the left map is found in the
right one by key lookup. -/
def mappingEq (a b : List (YamlValue × YamlValue)) : Bool :=
  (a.length == b.length) && subMap a b

theorem beqV_mapping (a b : List (YamlValue × YamlValue)) :
    beqV (YamlValue.mapping a) (YamlValue.mapping b) = mappingEq a b := by
  simp [beqV, mappingEq]

/-- The order-insensitive Mapping hash (mapping.rs lines 149-162):
hash each (key, value) entry with an independent fixed-seed hasher and
fold the per-entry hashes with XOR.  The per-entry hasher (DefaultHasher
over the recursive YamlValue hash) is abstracted as an arbitrary
function h, since only the commutative XOR combination matters for the
stated property. -/
def mappingHash (h : YamlValue → YamlValue → Nat)
    (m : List (YamlValue × YamlValue)) : Nat :=
  (m.map (fun p => h p.1 p.2)).foldl (fun acc x => acc ^^^ x) 0

theorem foldl_xor_perm :
    ∀ {l1 l2 : List Nat}, l1.Perm l2 →
      ∀ a : Nat, l1.foldl (fun acc x => acc ^^^ x) a =
        l2.foldl (fun acc x => acc ^^^ x) a := by
  intro l1 l2 hperm
  induction hperm with
  | nil => intro a; rfl
  | cons x _ ih => intro a; simp only [List.foldl_cons]; exact ih _
  | swap x y l =>
      intro a
      simp only [List.foldl_cons]
      have : a ^^^ y ^^^ x = a ^^^ x ^^^ y := by
        rw [Nat.xor_assoc, Nat.xor_assoc, Nat.xor_comm y x]
      rw [this]
  | trans _ _ ih1 ih2 => intro a; rw [ih1 a, ih2 a]

theorem mappingHash_perm (h : YamlValue → YamlValue → Nat)
    {l1 l2 : List (YamlValue × YamlValue)} (hperm : l1.Perm l2) :
    mappingHash h l1 = mappingHash h l2 := by
  unfold mappingHash
  exact foldl_xor_perm (hperm.map (fun p => h p.1 p.2)) 0

/-- C2: for a finite set of entries with pairwise Rust-unequal keys
(the only sets a map can hold), building the map by inserting the
entries in two different orders yields maps that are == equal and have
the same XOR-combined hash for every per-entry hasher, while each map's
iteration sequence is exactly its own insertion sequence. -/
theorem c2_order_insensitive_eq_hash
    (l1 l2 : List (YamlValue × YamlValue))
    (hperm : l1.Perm l2)
    (hv1 : validKeys (YamlValue.mapping l1) = true)
    (hv2 : validKeys (YamlValue.mapping l2) = true) :
    mappingEq (buildMap l1) (buildMap l2) = true ∧
    (∀ h : YamlValue → YamlValue → Nat,
      mappingHash h (buildMap l1) = mappingHash h (buildMap l2)) ∧
    buildMap l1 = l1 ∧ buildMap l2 = l2 := by
  simp only [validKeys, Bool.and_eq_true] at hv1 hv2
  obtain ⟨hd1, hp1⟩ := hv1
  obtain ⟨hd2, hp2⟩ := hv2
  have hb1 : buildMap l1 = l1 := buildMap_eq_self hd1
  have hb2 : buildMap l2 = l2 := buildMap_eq_self hd2
  refine ⟨?_, ?_, hb1, hb2⟩
  · rw [hb1, hb2]
    unfold mappingEq
    rw [Bool.and_eq_true]
    refine ⟨by rw [beq_iff_eq]; exact hperm.length_eq, ?_⟩
    rw [subMap_iff]
    intro p hp
    have hp2mem : p ∈ l2 := hperm.mem_iff.mp hp
    have hvp := validKeysP_mem hp2 p hp2mem
    have hrk : beqV p.1 p.1 = true := beqV_refl p.1 hvp.1
    have hrv : beqV p.2 p.2 = true := beqV_refl p.2 hvp.2
    apply lookupBeq_of_mem_unique hd2 hp2mem hrk hrv
    intro r hr hbr
    have hvr := validKeysP_mem hp2 r hr
    exact beqV_symm hvp.1 hvr.1 hbr
  · intro h
    rw [hb1, hb2]
    exact mappingHash_perm h hperm

theorem c2_witness :
    mappingEq
      (buildMap [(YamlValue.string "a", YamlValue.number 1),
        (YamlValue.string "b", YamlValue.number 2)])
      (buildMap [(YamlValue.string "b", YamlValue.number 2),
        (YamlValue.string "a", YamlValue.number 1)]) = true ∧
    buildMap [(YamlValue.string "a", YamlValue.number 1),
      (YamlValue.string "b", YamlValue.number 2)] =
      [(YamlValue.string "a", YamlValue.number 1),
        (YamlValue.string "b", YamlValue.number 2)] := by
  have h := c2_order_insensitive_eq_hash
    [(YamlValue.string "a", YamlValue.number 1),
      (YamlValue.string "b", YamlValue.number 2)]
    [(YamlValue.string "b", YamlValue.number 2),
      (YamlValue.string "a", YamlValue.number 1)]
    (List.Perm.swap (YamlValue.string "b", YamlValue.number 2)
      (YamlValue.string "a", YamlValue.number 1) [])
    (by simp [validKeys, validKeysP, distinctKeys, freshKey, beqV])
    (by simp [validKeys, validKeysP, distinctKeys, freshKey, beqV])
  exact ⟨h.1, h.2.2.1⟩

theorem tcmpL_self_append (l : List YamlValue) (y : YamlValue)
    (ys : List YamlValue) : tcmpL l (l ++ y :: ys) = Ordering.lt := by
  induction l with
  | nil => simp [tcmpL]
  | cons x xs ih =>
      simp only [List.cons_append, tcmpL]
      rw [tcmp_refl x]
      exact ih

/-- C3: the cross-variant order on Value is total (one of lt, eq, gt
always results and the comparison anti-commutes under swapping),
transitive, and antisymmetric in the sense that comparing equal means
Rust ==; it ranks Null < Bool < Number < String < Sequence < Mapping,
compares scalars by their natural orders and sequences element-wise
with shorter-is-less on common-prefix equality, and realises the
concrete chain Null < Bool(false) < Number(-1) < Number(0) <
String("") < Sequence([]) < Mapping(empty). -/
theorem c3_total_order :
    (∀ a b : YamlValue, cmpValue b a = (cmpValue a b).swap) ∧
    (∀ a b : YamlValue, cmpValue a b = Ordering.lt ∨ cmpValue a b = Ordering.eq ∨
      cmpValue a b = Ordering.gt) ∧
    (∀ a b c : YamlValue, cmpValue a b = Ordering.lt →
      cmpValue b c = Ordering.lt → cmpValue a c = Ordering.lt) ∧
    (∀ a b : YamlValue, validKeys a = true → validKeys b = true →
      cmpValue a b = Ordering.eq → beqV a b = true) ∧
    (∀ x y : Bool, cmpValue (YamlValue.bool x) (YamlValue.bool y) = cmpOrd x y) ∧
    (∀ m n : Int, cmpValue (YamlValue.number m) (YamlValue.number n) = cmpOrd m n) ∧
    (∀ s t : String, cmpValue (YamlValue.string s) (YamlValue.string t) = cmpOrd s t) ∧
    (∀ (xs : List YamlValue) (y : YamlValue) (ys : List YamlValue),
      cmpValue (YamlValue.sequence xs)
        (YamlValue.sequence (xs ++ y :: ys)) = Ordering.lt) ∧
    (cmpValue YamlValue.null (YamlValue.bool false) = Ordering.lt ∧
     cmpValue (YamlValue.bool false) (YamlValue.number (-1)) = Ordering.lt ∧
     cmpValue (YamlValue.number (-1)) (YamlValue.number 0) = Ordering.lt ∧
     cmpValue (YamlValue.number 0) (YamlValue.string "") = Ordering.lt ∧
     cmpValue (YamlValue.string "") (YamlValue.sequence []) = Ordering.lt ∧
     cmpValue (YamlValue.sequence []) (YamlValue.mapping []) = Ordering.lt) := by
  refine ⟨cmpValue_swap, ?_, @cmpValue_trans, ?_, ?_, ?_, ?_, ?_, ?_⟩
  · intro a b
    cases cmpValue a b
    · exact Or.inl rfl
    · exact Or.inr (Or.inl rfl)
    · exact Or.inr (Or.inr rfl)
  · intro a b hva hvb h
    exact beqV_of_canon_eq hva hvb (cmpValue_eq_canon h)
  · intro x y; simp [cmpValue]
  · intro m n; simp [cmpValue]
  · intro s t; simp [cmpValue]
  · intro xs y ys
    rw [cmpValue_eq_tcmp_canon, canon_sequence, canon_sequence]
    simp only [tcmp, List.map_append, List.map_cons]
    exact tcmpL_self_append (xs.map canon) (canon y) (ys.map canon)
  · refine ⟨by simp [cmpValue], by simp [cmpValue], ?_, by simp [cmpValue],
      by simp [cmpValue], by simp [cmpValue]⟩
    simp [cmpValue, cmpOrd]

theorem c3_witness : cmpValue YamlValue.null (YamlValue.number 0) = Ordering.lt := by
  obtain ⟨-, -, htrans, -, -, -, -, -, hchain⟩ := c3_total_order
  exact htrans _ _ _ hchain.1 (htrans _ _ _ hchain.2.1 hchain.2.2.1)

/-- serde_yaml Number: an integer-representable payload keeps its exact
integer; the Float case stores the exact mathematical value of the IEEE
double.  Every float this pipeline produces is an i64 cast to f64 and
hence integral, so an Int payload represents it exactly. -/
inductive YNum where
  | int (n : Int)
  | float (x : Int)

/-- serde_yaml Value: the generic parsed-document node this core
converts from and to. -/
inductive DocValue where
  | null
  | bool (b : Bool)
  | number (n : YNum)
  | string (s : String)
  | sequence (xs : List DocValue)
  | mapping (m : List (DocValue × DocValue))

/-- serde_yaml Number equality: same-variant by value, mixed variants
unequal. -/
def ynumBeq : YNum → YNum → Bool
  | .int a, .int b => a == b
  | .float a, .float b => a == b
  | _, _ => false

mutual

/-- serde_yaml Value equality: structural, with Mapping layers compared
like IndexMap (length plus per-key lookup). -/
def docBeqV : DocValue → DocValue → Bool
  | .null, .null => true
  | .bool a, .bool b => a == b
  | .number a, .number b => ynumBeq a b
  | .string a, .string b => a == b
  | .sequence a, .sequence b => docBeqL a b
  | .mapping a, .mapping b => (a.length == b.length) && docSubMap a b
  | _, _ => false
termination_by a b => sizeOf a + sizeOf b
decreasing_by all_goals simp_wf; all_goals omega

def docBeqL : List DocValue → List DocValue → Bool
  | [], [] => true
  | x :: xs, y :: ys => docBeqV x y && docBeqL xs ys
  | _, _ => false
termination_by a b => sizeOf a + sizeOf b
decreasing_by all_goals simp_wf; all_goals omega

def docSubMap : List (DocValue × DocValue) → List (DocValue × DocValue) → Bool
  | [], _ => true
  | (k, v) :: rest, b => docLookupBeq k v b && docSubMap rest b
termination_by a b => sizeOf a + sizeOf b
decreasing_by all_goals simp_wf; all_goals omega

def docLookupBeq (k v : DocValue) : List (DocValue × DocValue) → Bool
  | [] => false
  | (k2, v2) :: rest => if docBeqV k k2 then docBeqV v v2 else docLookupBeq k v rest
termination_by l => sizeOf k + sizeOf v + sizeOf l
decreasing_by all_goals simp_wf; all_goals omega

end

/-- serde_yaml Mapping insert: overwrite in place on an equal key, else
append. -/
def docInsert : List (DocValue × DocValue) → DocValue → DocValue →
    List (DocValue × DocValue)
  | [], k, v => [(k, v)]
  | (k2, v2) :: rest, k, v =>
      if docBeqV k k2 then (k2, v) :: rest else (k2, v2) :: docInsert rest k v

/-- Collecting pairs into a serde_yaml Mapping (insertion order with
overwrite-on-equal-key). -/
def docBuild (l : List (DocValue × DocValue)) : List (DocValue × DocValue) :=
  l.foldl (fun acc p => docInsert acc p.1 p.2) []

/-- The exact value of the nearest IEEE double to a natural number:
exact when m ≤ 2^53, round-to-nearest-even on the 53-bit significand
otherwise. -/
def roundNat53 (m : Nat) : Nat :=
  if m ≤ 2 ^ 53 then m
  else
    let e := Nat.log2 m - 52
    let ulp := 2 ^ e
    let q := m / ulp
    let r := m % ulp
    let q' := if 2 * r < ulp then q
      else if ulp < 2 * r then q + 1
      else if q % 2 = 0 then q else q + 1
    q' * ulp

/-- The exact value of (n as f64) for an i64 n: IEEE round-to-nearest-even,
symmetric in sign (this is what the to_f64 call of the Number conversion
performs). -/
def roundF64 (n : Int) : Int :=
  if n < 0 then -(roundNat53 n.natAbs : Int) else (roundNat53 n.natAbs : Int)

/-- Rust float-to-integer cast (x as i64) on an integral double:
truncation is the identity and out-of-range values saturate to the i64
bounds. -/
def i64Sat (x : Int) : Int :=
  if x < -(2 ^ 63) then -(2 ^ 63)
  else if x > 2 ^ 63 - 1 then 2 ^ 63 - 1
  else x

mutual

/-- From YamlValue to the document node (impl From of the reference for
serde_yaml Value, yaml_value.rs lines 69-91).  A Number is converted
through f64 (Number::from of value.to_f64()), producing a Float node
whose value is the rounded double; a Mapping collects the converted
pairs into a serde_yaml Mapping. -/
def toDoc : YamlValue → DocValue
  | .null => .null
  | .bool b => .bool b
  | .number n => .number (.float (roundF64 n))
  | .string s => .string s
  | .sequence xs => .sequence (toDocL xs)
  | .mapping m => .mapping (docBuild (toDocP m))
termination_by v => sizeOf v
decreasing_by all_goals simp_wf; all_goals omega

def toDocL : List YamlValue → List DocValue
  | [] => []
  | x :: xs => toDoc x :: toDocL xs
termination_by l => sizeOf l
decreasing_by all_goals simp_wf; all_goals omega

def toDocP : List (YamlValue × YamlValue) → List (DocValue × DocValue)
  | [] => []
  | (k, v) :: rest => (toDoc k, toDoc v) :: toDocP rest
termination_by l => sizeOf l
decreasing_by all_goals simp_wf; all_goals omega

end

mutual

/-- YamlValue::new (yaml_value.rs lines 23-47): the recursive
constructor from a document node.  An integer-representable number is
taken by as_i64; a Float number falls to as_f64 and is cast to i64
(truncating-saturating); a mapping node is rebuilt by converting each
pair and inserting into a fresh Mapping in order. -/
def fromDoc : DocValue → YamlValue
  | .null => .null
  | .bool b => .bool b
  | .number (.int n) => .number n
  | .number (.float x) => .number (i64Sat x)
  | .string s => .string s
  | .sequence xs => .sequence (fromDocL xs)
  | .mapping m => .mapping (buildMap (fromDocP m))
termination_by v => sizeOf v
decreasing_by all_goals simp_wf; all_goals omega

def fromDocL : List DocValue → List YamlValue
  | [] => []
  | x :: xs => fromDoc x :: fromDocL xs
termination_by l => sizeOf l
decreasing_by all_goals simp_wf; all_goals omega

def fromDocP : List (DocValue × DocValue) → List (YamlValue × YamlValue)
  | [] => []
  | (k, v) :: rest => (fromDoc k, fromDoc v) :: fromDocP rest
termination_by l => sizeOf l
decreasing_by all_goals simp_wf; all_goals omega

end

mutual

/-- Every number in the value lies in the range the IEEE double format
represents exactly (absolute value at most 2^53). -/
def smallNums : YamlValue → Bool
  | .null => true
  | .bool _ => true
  | .number n => decide (n.natAbs ≤ 2 ^ 53)
  | .string _ => true
  | .sequence xs => smallNumsL xs
  | .mapping m => smallNumsP m
termination_by v => sizeOf v
decreasing_by all_goals simp_wf; all_goals omega

def smallNumsL : List YamlValue → Bool
  | [] => true
  | x :: xs => smallNums x && smallNumsL xs
termination_by l => sizeOf l
decreasing_by all_goals simp_wf; all_goals omega

def smallNumsP : List (YamlValue × YamlValue) → Bool
  | [] => true
  | (k, v) :: rest => smallNums k && smallNums v && smallNumsP rest
termination_by l => sizeOf l
decreasing_by all_goals simp_wf; all_goals omega

end

theorem roundNat53_small {m : Nat} (h : m ≤ 2 ^ 53) : roundNat53 m = m := by
  unfold roundNat53
  rw [if_pos h]

theorem roundF64_small {n : Int} (h : n.natAbs ≤ 2 ^ 53) : roundF64 n = n := by
  unfold roundF64
  rw [roundNat53_small h]
  by_cases hn : n < 0
  · rw [if_pos hn]; omega
  · rw [if_neg hn]; omega

theorem i64Sat_small {x : Int} (h : x.natAbs ≤ 2 ^ 53) : i64Sat x = x := by
  unfold i64Sat
  rw [if_neg (by omega), if_neg (by omega)]

theorem toDocL_eq_map (l : List YamlValue) : toDocL l = l.map toDoc := by
  induction l with
  | nil => simp [toDocL]
  | cons x xs ih => simp [toDocL, ih]

theorem toDocP_eq_map (l : List (YamlValue × YamlValue)) :
    toDocP l = l.map (fun p => (toDoc p.1, toDoc p.2)) := by
  induction l with
  | nil => simp [toDocP]
  | cons p rest ih =>
      obtain ⟨k, v⟩ := p
      simp [toDocP, ih]

theorem smallNumsL_mem {l : List YamlValue} (h : smallNumsL l = true) :
    ∀ x ∈ l, smallNums x = true := by
  induction l with
  | nil => intro x hx; simp at hx
  | cons y ys ih =>
      intro x hx
      simp only [smallNumsL, Bool.and_eq_true] at h
      rcases List.mem_cons.mp hx with h1 | h1
      · rw [h1]; exact h.1
      · exact ih h.2 x h1

theorem smallNumsP_mem {l : List (YamlValue × YamlValue)} (h : smallNumsP l = true) :
    ∀ p ∈ l, smallNums p.1 = true ∧ smallNums p.2 = true := by
  induction l with
  | nil => intro p hp; simp at hp
  | cons q qs ih =>
      intro p hp
      obtain ⟨k, v⟩ := q
      simp only [smallNumsP, Bool.and_eq_true] at h
      rcases List.mem_cons.mp hp with h1 | h1
      · rw [h1]; exact ⟨h.1.1, h.1.2⟩
      · exact ih h.2 p h1

/-- No entry of the document map has a key serde-equal (in either
direction) to k. -/
def docFreshKey (k : DocValue) : List (DocValue × DocValue) → Bool
  | [] => true
  | p :: rest => !docBeqV k p.1 && !docBeqV p.1 k && docFreshKey k rest

/-- Pairwise serde-unequal keys of a document map. -/
def docDistinct : List (DocValue × DocValue) → Bool
  | [] => true
  | p :: rest => docFreshKey p.1 rest && docDistinct rest

theorem docFreshKey_mem {k : DocValue} :
    ∀ {l : List (DocValue × DocValue)}, docFreshKey k l = true →
      ∀ q ∈ l, docBeqV k q.1 = false ∧ docBeqV q.1 k = false := by
  intro l
  induction l with
  | nil => intro _ q hq; simp at hq
  | cons r rest ih =>
      intro hf q hq
      simp only [docFreshKey, Bool.and_eq_true, Bool.not_eq_true'] at hf
      rcases List.mem_cons.mp hq with h | h
      · rw [h]; exact ⟨hf.1.1, hf.1.2⟩
      · exact ih hf.2 q h

theorem docInsert_fresh {m : List (DocValue × DocValue)} {k v : DocValue}
    (hf : ∀ q ∈ m, docBeqV k q.1 = false) :
    docInsert m k v = m ++ [(k, v)] := by
  induction m with
  | nil => rfl
  | cons q rest ih =>
      obtain ⟨k2, v2⟩ := q
      have hk : docBeqV k k2 = false := hf (k2, v2) (by simp)
      simp only [docInsert, hk, Bool.false_eq_true, if_false, List.cons_append,
        List.cons.injEq, true_and]
      exact ih (fun r hr => hf r (by simp [hr]))

theorem docBuild_go :
    ∀ (l acc : List (DocValue × DocValue)), docDistinct l = true →
      (∀ p ∈ l, ∀ q ∈ acc, docBeqV p.1 q.1 = false) →
      List.foldl (fun acc p => docInsert acc p.1 p.2) acc l = acc ++ l := by
  intro l
  induction l with
  | nil => intro acc _ _; simp
  | cons p rest ih =>
      intro acc hd hf
      simp only [docDistinct, Bool.and_eq_true] at hd
      simp only [List.foldl_cons]
      have hstep : docInsert acc p.1 p.2 = acc ++ [p] := by
        rw [docInsert_fresh (fun q hq => hf p (by simp) q hq)]
      rw [hstep, ih (acc ++ [p]) hd.2 ?_]
      · simp
      · intro p' hp' q hq
        rcases List.mem_append.mp hq with h | h
        · exact hf p' (by simp [hp']) q h
        · rw [List.mem_singleton.mp h]
          exact (docFreshKey_mem hd.1 p' hp').2

theorem docBuild_eq_self {l : List (DocValue × DocValue)}
    (hd : docDistinct l = true) : docBuild l = l := by
  have := docBuild_go l [] hd (by intro p _ q hq; simp at hq)
  simpa [docBuild] using this

theorem docSubMap_iff (l b : List (DocValue × DocValue)) :
    docSubMap l b = true ↔ ∀ p ∈ l, docLookupBeq p.1 p.2 b = true := by
  induction l with
  | nil => simp [docSubMap]
  | cons p rest ih =>
      obtain ⟨k, v⟩ := p
      simp [docSubMap, Bool.and_eq_true, ih]

/-- The first entry of the document map with a key serde-equal to k. -/
def docFirstMatch (k : DocValue) :
    List (DocValue × DocValue) → Option (DocValue × DocValue)
  | [] => none
  | p :: rest => if docBeqV k p.1 then some p else docFirstMatch k rest

theorem docLookupBeq_eq_firstMatch (k v : DocValue) :
    ∀ l : List (DocValue × DocValue),
      docLookupBeq k v l = match docFirstMatch k l with
        | some p => docBeqV v p.2
        | none => false := by
  intro l
  induction l with
  | nil => simp [docLookupBeq, docFirstMatch]
  | cons p rest ih =>
      obtain ⟨k2, v2⟩ := p
      by_cases h : docBeqV k k2 <;> simp [docLookupBeq, docFirstMatch, h, ih]

theorem docFirstMatch_mem {k : DocValue} {l : List (DocValue × DocValue)}
    {p : DocValue × DocValue} (h : docFirstMatch k l = some p) :
    p ∈ l ∧ docBeqV k p.1 = true := by
  induction l with
  | nil => simp [docFirstMatch] at h
  | cons q rest ih =>
      by_cases hq : docBeqV k q.1
      · simp only [docFirstMatch, hq, if_pos] at h
        cases h
        exact ⟨List.mem_cons_self _ _, hq⟩
      · simp only [docFirstMatch, hq, Bool.false_eq_true, if_neg,
          not_false_iff] at h
        obtain ⟨hm, hb⟩ := ih h
        exact ⟨List.mem_cons_of_mem _ hm, hb⟩

theorem docLookupBeq_elim {k v : DocValue} {b : List (DocValue × DocValue)}
    (h : docLookupBeq k v b = true) :
    ∃ q, q ∈ b ∧ docBeqV k q.1 = true ∧ docBeqV v q.2 = true := by
  rw [docLookupBeq_eq_firstMatch] at h
  cases hf : docFirstMatch k b with
  | none => rw [hf] at h; exact Bool.noConfusion h
  | some q =>
      rw [hf] at h
      obtain ⟨hm, hb⟩ := docFirstMatch_mem hf
      exact ⟨q, hm, hb, h⟩

theorem docFreshKey_of_pointwise :
    ∀ (k : YamlValue) (l : List (YamlValue × YamlValue)),
      (∀ q ∈ l, beqV k q.1 = false ∧ beqV q.1 k = false) →
      (∀ q ∈ l, (docBeqV (toDoc k) (toDoc q.1) = true → beqV k q.1 = true) ∧
        (docBeqV (toDoc q.1) (toDoc k) = true → beqV q.1 k = true)) →
      docFreshKey (toDoc k) (toDocP l) = true := by
  intro k l
  induction l with
  | nil => intro _ _; simp [toDocP, docFreshKey]
  | cons p rest ih =>
      intro hfresh htrans
      obtain ⟨k2, v2⟩ := p
      simp only [toDocP, docFreshKey, Bool.and_eq_true, Bool.not_eq_true']
      have h1 := hfresh (k2, v2) (by simp)
      have h2 := htrans (k2, v2) (by simp)
      refine ⟨⟨?_, ?_⟩, ?_⟩
      · cases hc : docBeqV (toDoc k) (toDoc k2)
        · rfl
        · rw [h2.1 hc] at h1; exact absurd h1.1 (by simp)
      · cases hc : docBeqV (toDoc k2) (toDoc k)
        · rfl
        · rw [h2.2 hc] at h1; exact absurd h1.2 (by simp)
      · exact ih (fun q hq => hfresh q (by simp [hq]))
          (fun q hq => htrans q (by simp [hq]))

theorem docDistinct_of_pointwise :
    ∀ (m : List (YamlValue × YamlValue)), distinctKeys m = true →
      (∀ p ∈ m, ∀ q ∈ m,
        (docBeqV (toDoc p.1) (toDoc q.1) = true → beqV p.1 q.1 = true)) →
      docDistinct (toDocP m) = true := by
  intro m
  induction m with
  | nil => intro _ _; simp [toDocP, docDistinct]
  | cons p rest ih =>
      intro hd htrans
      simp only [distinctKeys, Bool.and_eq_true] at hd
      obtain ⟨k, v⟩ := p
      simp only [toDocP, docDistinct, Bool.and_eq_true]
      constructor
      · apply docFreshKey_of_pointwise k rest
        · exact fun q hq => freshKey_mem hd.1 q hq
        · intro q hq
          exact ⟨htrans (k, v) (by simp) q (by simp [hq]),
            htrans q (by simp [hq]) (k, v) (by simp)⟩
      · exact ih hd.2
          (fun p' hp' q hq => htrans p' (by simp [hp']) q (by simp [hq]))

theorem docBeqL_transfer_pointwise :
    ∀ (l1 l2 : List YamlValue),
      (∀ x ∈ l1, ∀ y ∈ l2, docBeqV (toDoc x) (toDoc y) = true → beqV x y = true) →
      docBeqL (toDocL l1) (toDocL l2) = true → beqL l1 l2 = true := by
  intro l1
  induction l1 with
  | nil =>
      intro l2 _ h
      cases l2 with
      | nil => simp [beqL]
      | cons y ys => simp [toDocL, docBeqL] at h
  | cons x xs ih =>
      intro l2 hp h
      cases l2 with
      | nil => simp [toDocL, docBeqL] at h
      | cons y ys =>
          simp only [toDocL, docBeqL, Bool.and_eq_true] at h
          simp only [beqL, Bool.and_eq_true]
          exact ⟨hp x (by simp) y (by simp) h.1,
            ih ys (fun u hu v hv => hp u (by simp [hu]) v (by simp [hv])) h.2⟩

theorem toDocP_length (l : List (YamlValue × YamlValue)) :
    (toDocP l).length = l.length := by
  rw [toDocP_eq_map, List.length_map]

/-- Converting to the document representation and comparing with serde
equality can only identify values that were already Rust-equal, as long
as every number is exactly representable in f64. -/
theorem docBeq_toDoc_aux :
    ∀ n : Nat, ∀ a b : YamlValue, sizeOf a ≤ n → sizeOf b ≤ n →
      validKeys a = true → validKeys b = true →
      smallNums a = true → smallNums b = true →
      docBeqV (toDoc a) (toDoc b) = true → beqV a b = true := by
  intro n
  induction n with
  | zero =>
      intro a b ha _ _ _ _ _ _
      exact absurd ha (by cases a <;> simp)
  | succ n ih =>
      intro a b ha hb va vb sa sb h
      cases a <;> cases b <;> simp only [toDoc, docBeqV] at h <;> simp only [beqV]
      all_goals try rfl
      all_goals try exact Bool.noConfusion h
      case bool.bool x y => exact h
      case string.string x y => exact h
      case number.number n1 n2 =>
          simp only [ynumBeq, beq_iff_eq] at h
          simp only [smallNums, decide_eq_true_eq] at sa sb
          rw [roundF64_small sa, roundF64_small sb] at h
          rw [beq_iff_eq]
          exact h
      case sequence.sequence xs ys =>
          simp only [YamlValue.sequence.sizeOf_spec] at ha hb
          simp only [validKeys] at va vb
          simp only [smallNums] at sa sb
          apply docBeqL_transfer_pointwise xs ys _ h
          intro x hx y hy hxy
          have s1 := List.sizeOf_lt_of_mem hx
          have s2 := List.sizeOf_lt_of_mem hy
          exact ih x y (by omega) (by omega) (validKeysL_mem va x hx)
            (validKeysL_mem vb y hy) (smallNumsL_mem sa x hx)
            (smallNumsL_mem sb y hy) hxy
      case mapping.mapping m1 m2 =>
          simp only [YamlValue.mapping.sizeOf_spec] at ha hb
          simp only [validKeys, Bool.and_eq_true] at va vb
          obtain ⟨hd1, hp1⟩ := va
          obtain ⟨hd2, hp2⟩ := vb
          simp only [smallNums] at sa sb
          have hptrans : ∀ (m : List (YamlValue × YamlValue)),
              sizeOf m ≤ n → validKeysP m = true → smallNumsP m = true →
              ∀ p ∈ m, ∀ q ∈ m,
                docBeqV (toDoc p.1) (toDoc q.1) = true → beqV p.1 q.1 = true := by
            intro m hm hvp hsp p hp q hq hpq
            have s1 := List.sizeOf_lt_of_mem hp
            have s2 := List.sizeOf_lt_of_mem hq
            have f1 := sizeOf_fst_lt p
            have f2 := sizeOf_fst_lt q
            exact ih p.1 q.1 (by omega) (by omega) (validKeysP_mem hvp p hp).1
              (validKeysP_mem hvp q hq).1 (smallNumsP_mem hsp p hp).1
              (smallNumsP_mem hsp q hq).1 hpq
          have hb1 : docBuild (toDocP m1) = toDocP m1 :=
            docBuild_eq_self (docDistinct_of_pointwise m1 hd1
              (hptrans m1 (by omega) hp1 sa))
          have hb2 : docBuild (toDocP m2) = toDocP m2 :=
            docBuild_eq_self (docDistinct_of_pointwise m2 hd2
              (hptrans m2 (by omega) hp2 sb))
          rw [hb1, hb2, Bool.and_eq_true] at h
          obtain ⟨hlen, hsub⟩ := h
          rw [beq_iff_eq, toDocP_length, toDocP_length] at hlen
          rw [docSubMap_iff] at hsub
          rw [Bool.and_eq_true]
          refine ⟨by rw [beq_iff_eq]; exact hlen, ?_⟩
          rw [subMap_iff]
          intro p hp
          have hdp : (toDoc p.1, toDoc p.2) ∈ toDocP m1 := by
            rw [toDocP_eq_map]
            exact List.mem_map.mpr ⟨p, hp, rfl⟩
          have hlk := hsub (toDoc p.1, toDoc p.2) hdp
          obtain ⟨dq, hdqm, hdk, hdv⟩ := docLookupBeq_elim hlk
          rw [toDocP_eq_map] at hdqm
          obtain ⟨q, hq, hqe⟩ := List.mem_map.mp hdqm
          rw [← hqe] at hdk hdv
          have s1 := List.sizeOf_lt_of_mem hp
          have s2 := List.sizeOf_lt_of_mem hq
          have f1 := sizeOf_fst_lt p
          have f2 := sizeOf_fst_lt q
          have g1 := sizeOf_snd_lt p
          have g2 := sizeOf_snd_lt q
          have vk1 := validKeysP_mem hp1 p hp
          have vk2 := validKeysP_mem hp2 q hq
          have sm1 := smallNumsP_mem sa p hp
          have sm2 := smallNumsP_mem sb q hq
          have hk : beqV p.1 q.1 = true :=
            ih p.1 q.1 (by omega) (by omega) vk1.1 vk2.1 sm1.1 sm2.1 hdk
          have hv : beqV p.2 q.2 = true :=
            ih p.2 q.2 (by omega) (by omega) vk1.2 vk2.2 sm1.2 sm2.2 hdv
          apply lookupBeq_of_mem_unique hd2 hq hk hv
          intro r hr hbr
          have vk3 := validKeysP_mem hp2 r hr
          have h1 : beqV r.1 p.1 = true := beqV_symm vk1.1 vk3.1 hbr
          exact beqV_trans vk3.1 vk1.1 vk2.1 h1 hk

theorem docBeq_toDoc_beq {a b : YamlValue} (hva : validKeys a = true)
    (hvb : validKeys b = true) (hsa : smallNums a = true)
    (hsb : smallNums b = true)
    (h : docBeqV (toDoc a) (toDoc b) = true) : beqV a b = true :=
  docBeq_toDoc_aux (sizeOf a + sizeOf b) a b (by omega) (by omega)
    hva hvb hsa hsb h

theorem fromDocL_toDocL_pointwise :
    ∀ l : List YamlValue, (∀ x ∈ l, fromDoc (toDoc x) = x) →
      fromDocL (toDocL l) = l := by
  intro l
  induction l with
  | nil => intro _; simp [toDocL, fromDocL]
  | cons x xs ih =>
      intro hp
      simp only [toDocL, fromDocL]
      rw [hp x (by simp), ih (fun u hu => hp u (by simp [hu]))]

theorem fromDocP_toDocP_pointwise :
    ∀ l : List (YamlValue × YamlValue),
      (∀ p ∈ l, fromDoc (toDoc p.1) = p.1 ∧ fromDoc (toDoc p.2) = p.2) →
      fromDocP (toDocP l) = l := by
  intro l
  induction l with
  | nil => intro _; simp [toDocP, fromDocP]
  | cons p rest ih =>
      intro hp
      obtain ⟨k, v⟩ := p
      simp only [toDocP, fromDocP]
      have h := hp (k, v) (by simp)
      rw [h.1, h.2, ih (fun q hq => hp q (by simp [hq]))]

theorem roundtrip_aux :
    ∀ n : Nat, ∀ a : YamlValue, sizeOf a ≤ n →
      validKeys a = true → smallNums a = true →
      fromDoc (toDoc a) = a := by
  intro n
  induction n with
  | zero =>
      intro a ha _ _
      exact absurd ha (by cases a <;> simp)
  | succ n ih =>
      intro a ha va sa
      cases a
      case null => simp [toDoc, fromDoc]
      case bool b => simp [toDoc, fromDoc]
      case number m =>
          simp only [smallNums, decide_eq_true_eq] at sa
          simp only [toDoc, fromDoc]
          rw [roundF64_small sa, i64Sat_small sa]
      case string s => simp [toDoc, fromDoc]
      case sequence xs =>
          simp only [YamlValue.sequence.sizeOf_spec] at ha
          simp only [validKeys] at va
          simp only [smallNums] at sa
          simp only [toDoc, fromDoc]
          rw [fromDocL_toDocL_pointwise xs]
          intro x hx
          have s1 := List.sizeOf_lt_of_mem hx
          exact ih x (by omega) (validKeysL_mem va x hx) (smallNumsL_mem sa x hx)
      case mapping m =>
          simp only [YamlValue.mapping.sizeOf_spec] at ha
          simp only [validKeys, Bool.and_eq_true] at va
          obtain ⟨hd, hp⟩ := va
          simp only [smallNums] at sa
          simp only [toDoc]
          have hdd : docDistinct (toDocP m) = true := by
            apply docDistinct_of_pointwise m hd
            intro p hpm q hqm hpq
            exact docBeq_toDoc_beq (validKeysP_mem hp p hpm).1
              (validKeysP_mem hp q hqm).1 (smallNumsP_mem sa p hpm).1
              (smallNumsP_mem sa q hqm).1 hpq
          rw [docBuild_eq_self hdd]
          simp only [fromDoc]
          rw [fromDocP_toDocP_pointwise m, buildMap_eq_self hd]
          intro p hpm
          have s1 := List.sizeOf_lt_of_mem hpm
          have f1 := sizeOf_fst_lt p
          have g1 := sizeOf_snd_lt p
          have vk := validKeysP_mem hp p hpm
          have sm := smallNumsP_mem sa p hpm
          exact ⟨ih p.1 (by omega) vk.1 sm.1, ih p.2 (by omega) vk.2 sm.2⟩

theorem log2_9007199254740993 : Nat.log2 9007199254740993 = 53 := by
  rw [Nat.log2_eq_log_two]
  apply Nat.log_eq_of_pow_le_of_lt_pow <;> norm_num

theorem roundNat53_9007199254740993 :
    roundNat53 9007199254740993 = 9007199254740992 := by
  unfold roundNat53
  rw [if_neg (by norm_num)]
  rw [log2_9007199254740993]
  norm_num

/-- C1 (counterexample): converting Number(2^53 + 1) to the document
node and back does not reproduce the value, because the conversion to
the document representation routes the i64 through f64
(Number::from(value.to_f64())), which rounds 2^53 + 1 to 2^53; the
value round-trips to Number(2^53) instead.  This refutes the claim that
the round-trip is the identity for every i64-numbered value. -/
theorem c1_roundtrip_counterexample :
    fromDoc (toDoc (YamlValue.number 9007199254740993)) ≠
      YamlValue.number 9007199254740993 := by
  have hr : roundF64 9007199254740993 = 9007199254740992 := by
    unfold roundF64
    rw [if_neg (by norm_num)]
    have habs : Int.natAbs 9007199254740993 = 9007199254740993 := rfl
    rw [habs, roundNat53_9007199254740993]
    norm_num
  have hs : i64Sat 9007199254740992 = 9007199254740992 := by
    apply i64Sat_small
    norm_num
  have h : fromDoc (toDoc (YamlValue.number 9007199254740993)) =
      YamlValue.number 9007199254740992 := by
    simp only [toDoc, fromDoc]
    rw [hr, hs]
  rw [h]
  intro hc
  have := (YamlValue.number.injEq _ _).mp hc
  norm_num at this

/-- C1 (amended): the round-trip from a Value through the generic
document node representation and back is the identity for every
constructible Value whose numbers all have absolute value at most 2^53
(the range where the f64 detour of the Number conversion is exact); the
stated fractional-truncation exception is unchanged, but numbers
outside the exactly-representable f64 range are additionally perturbed
by rounding, so the round-trip is not the identity for every i64. -/
theorem c1_roundtrip_amended (v : YamlValue)
    (hvalid : validKeys v = true) (hsmall : smallNums v = true) :
    fromDoc (toDoc v) = v :=
  roundtrip_aux (sizeOf v) v le_rfl hvalid hsmall

theorem c1_witness :
    fromDoc (toDoc (YamlValue.mapping
      [(YamlValue.string "a",
        YamlValue.sequence [YamlValue.number 1, YamlValue.number 2]),
       (YamlValue.string "b", YamlValue.string "x")])) =
      YamlValue.mapping
        [(YamlValue.string "a",
          YamlValue.sequence [YamlValue.number 1, YamlValue.number 2]),
         (YamlValue.string "b", YamlValue.string "x")] := by
  apply c1_roundtrip_amended
  · simp [validKeys, validKeysP, validKeysL, distinctKeys, freshKey, beqV]
  · simp [smallNums, smallNumsP, smallNumsL]

/-- Outcome of running Rust code that may panic: a returned value, or a
process-terminating panic. -/
inductive RRes (α : Type) where
  | ret (a : α)
  | fatal

/-- Accumulating digit parse over the character list; any non-digit
character fails. -/
def parseDigits : List Char → Nat → Option Nat
  | [], acc => some acc
  | c :: cs, acc =>
      if c.isDigit then parseDigits cs (acc * 10 + (c.toNat - 48)) else none

/-- str::parse::<i64>: optional single sign, at least one ASCII digit,
no other characters, and the resulting value within the i64 range
(overflow is a parse error in Rust). -/
def rustParseI64 (s : String) : Option Int :=
  let cs := s.toList
  let signStripped : Bool × List Char :=
    match cs with
    | '-' :: rest => (true, rest)
    | '+' :: rest => (false, rest)
    | _ => (false, cs)
  match signStripped.2 with
  | [] => none
  | ds =>
      match parseDigits ds 0 with
      | none => none
      | some m =>
          let v : Int := if signStripped.1 then -(m : Int) else (m : Int)
          if v < -(2 ^ 63) ∨ 2 ^ 63 - 1 < v then none else some v

/-- str::parse::<bool>: exactly "true" or "false". -/
def rustParseBool (s : String) : Option Bool :=
  if s = "true" then some true
  else if s = "false" then some false
  else none

/-- impl TryFrom of the reference for i64 (yaml_value.rs lines 93-106):
a Number is returned as is, a String is parsed (panicking when the
parse fails), a Bool becomes 1 or 0, and any other variant is the
recoverable Err(()). -/
def tryFromI64 : YamlValue → RRes (Except Unit Int)
  | .number n => .ret (.ok n)
  | .string s =>
      match rustParseI64 s with
      | some n => .ret (.ok n)
      | none => .fatal
  | .bool b => .ret (.ok (if b then 1 else 0))
  | _ => .ret (.error ())

/-- impl TryFrom of the reference for bool (yaml_value.rs lines
178-191): a Number maps to value-is-nonzero, a String is parsed as
"true"/"false" (panicking otherwise), a Bool is the identity, any other
variant is Err(()). -/
def tryFromBool : YamlValue → RRes (Except Unit Bool)
  | .number n => .ret (.ok (n != 0))
  | .string s =>
      match rustParseBool s with
      | some b => .ret (.ok b)
      | none => .fatal
  | .bool b => .ret (.ok b)
  | _ => .ret (.error ())

/-- The element loop of the Vec conversion (yaml_value.rs lines
193-213): each element is converted with the component conversion and a
failing element panics. -/
def convElems {α : Type} (f : YamlValue → RRes (Except Unit α)) :
    List YamlValue → RRes (List α)
  | [] => .ret []
  | x :: xs =>
      match f x with
      | .fatal => .fatal
      | .ret (.error _) => .fatal
      | .ret (.ok a) =>
          match convElems f xs with
          | .fatal => .fatal
          | .ret rest => .ret (a :: rest)

/-- impl TryFrom of the reference for Vec, parameterized by the
component conversion: a Sequence is converted element-wise (panicking
on a failing element), any other variant is Err(()). -/
def tryFromVec {α : Type} (f : YamlValue → RRes (Except Unit α)) :
    YamlValue → RRes (Except Unit (List α))
  | .sequence xs =>
      match convElems f xs with
      | .fatal => .fatal
      | .ret l => .ret (.ok l)
  | _ => .ret (.error ())

/-- YamlValue::parse (yaml_value.rs lines 49-51): runs the conversion
and turns its Result into an Option; a panic inside the conversion
escapes. -/
def parseI64 (v : YamlValue) : RRes (Option Int) :=
  match tryFromI64 v with
  | .ret r => .ret r.toOption
  | .fatal => .fatal

def parseBool (v : YamlValue) : RRes (Option Bool) :=
  match tryFromBool v with
  | .ret r => .ret r.toOption
  | .fatal => .fatal

def parseVecI64 (v : YamlValue) : RRes (Option (List Int)) :=
  match tryFromVec tryFromI64 v with
  | .ret r => .ret r.toOption
  | .fatal => .fatal

/-- C5: conversions distinguish the two failure modes.  A shape
mismatch (requesting i64 from Sequence, Mapping or Null) is recoverable
— parse returns None and never panics — while a String whose content
does not parse as an i64 makes the conversion panic. -/
theorem c5_failure_modes :
    (∀ xs : List YamlValue, parseI64 (YamlValue.sequence xs) = RRes.ret none) ∧
    (∀ m : List (YamlValue × YamlValue),
      parseI64 (YamlValue.mapping m) = RRes.ret none) ∧
    parseI64 YamlValue.null = RRes.ret none ∧
    (∀ s : String, rustParseI64 s = none →
      tryFromI64 (YamlValue.string s) = RRes.fatal) := by
  refine ⟨?_, ?_, ?_, ?_⟩
  · intro xs; rfl
  · intro m; rfl
  · rfl
  · intro s h
    simp [tryFromI64, h]

theorem c5_witness :
    rustParseI64 "abc" = none ∧
    tryFromI64 (YamlValue.string "abc") = RRes.fatal := by
  have h : rustParseI64 "abc" = none := by decide
  exact ⟨h, c5_failure_modes.2.2.2 "abc" h⟩

/-- C6: concrete conversion results.  parse i64 of String "42" is
Some 42; parse i64 of an empty Sequence is None; parse bool of
Number 0 is Some false, and in general Number n converts to the bool
n != 0; parse of Vec i64 on Sequence [1, 2] is Some [1, 2]. -/
theorem c6_conversion_correctness :
    parseI64 (YamlValue.string "42") = RRes.ret (some 42) ∧
    parseI64 (YamlValue.sequence []) = RRes.ret none ∧
    parseBool (YamlValue.number 0) = RRes.ret (some false) ∧
    (∀ n : Int, parseBool (YamlValue.number n) = RRes.ret (some (n != 0))) ∧
    parseVecI64 (YamlValue.sequence [YamlValue.number 1, YamlValue.number 2]) =
      RRes.ret (some [1, 2]) := by
  refine ⟨?_, rfl, rfl, ?_, rfl⟩
  · have h : rustParseI64 "42" = some 42 := by decide
    simp [parseI64, tryFromI64, h, Except.toOption]
  · intro n; rfl

/-- impl AddAssign of the reference (yaml_value.rs lines 356-371):
Number+Number adds, String+String concatenates, Sequence+Sequence
appends, every other pair leaves the left side unchanged. -/
def addAssign : YamlValue → YamlValue → YamlValue
  | .number a, .number b => .number (a + b)
  | .string a, .string b => .string (a ++ b)
  | .sequence a, .sequence b => .sequence (a ++ b)
  | a, _ => a

/-- impl SubAssign of the reference (yaml_value.rs lines 373-382):
Number+Number subtracts, every other pair leaves the left side
unchanged. -/
def subAssign : YamlValue → YamlValue → YamlValue
  | .number a, .number b => .number (a - b)
  | a, _ => a

/-- The variant pairs for which add-assign is defined. -/
def addMatches : YamlValue → YamlValue → Bool
  | .number _, .number _ => true
  | .string _, .string _ => true
  | .sequence _, .sequence _ => true
  | _, _ => false

/-- The variant pairs for which subtract-assign is defined. -/
def subMatches : YamlValue → YamlValue → Bool
  | .number _, .number _ => true
  | _, _ => false

/-- C8: compound assignment on a mismatched-variant pair is a silent
no-op, not an error: the left side is returned unchanged, concretely
Number 5 -= String "x" leaves Number 5. -/
theorem c8_compound_assignment_noop :
    (∀ a b : YamlValue, addMatches a b = false → addAssign a b = a) ∧
    (∀ a b : YamlValue, subMatches a b = false → subAssign a b = a) ∧
    subAssign (YamlValue.number 5) (YamlValue.string "x") = YamlValue.number 5 := by
  refine ⟨?_, ?_, rfl⟩
  · intro a b h
    cases a <;> cases b <;> first
      | rfl
      | (exfalso; simp [addMatches] at h)
  · intro a b h
    cases a <;> cases b <;> first
      | rfl
      | (exfalso; simp [subMatches] at h)

theorem c8_witness :
    addMatches (YamlValue.number 5) (YamlValue.string "x") = false ∧
    addAssign (YamlValue.number 5) (YamlValue.string "x") = YamlValue.number 5 :=
  ⟨rfl, c8_compound_assignment_noop.1 (YamlValue.number 5)
    (YamlValue.string "x") rfl⟩

/-- One positional element of a tuple conversion (yaml_value.rs lines
215-294): a missing element (iter.next() is None) panics, a component
conversion error panics, otherwise the converted component results. -/
def tupleElem {α : Type} (f : YamlValue → RRes (Except Unit α)) :
    Option YamlValue → RRes α
  | none => .fatal
  | some v =>
      match f v with
      | .fatal => .fatal
      | .ret (.error _) => .fatal
      | .ret (.ok a) => .ret a

/-- impl TryFrom of the reference for 2-tuples, parameterized by the
component conversions: the first two elements of a Sequence are
converted positionally; the rest of the sequence is never consulted;
non-Sequence input is Err(()). -/
def tryFromTuple2 {α β : Type} (f : YamlValue → RRes (Except Unit α))
    (g : YamlValue → RRes (Except Unit β)) :
    YamlValue → RRes (Except Unit (α × β))
  | .sequence xs =>
      match tupleElem f xs[0]? with
      | .fatal => .fatal
      | .ret a =>
          match tupleElem g xs[1]? with
          | .fatal => .fatal
          | .ret b => .ret (.ok (a, b))
  | _ => .ret (.error ())

/-- impl TryFrom of the reference for 3-tuples. -/
def tryFromTuple3 {α β γ : Type} (f : YamlValue → RRes (Except Unit α))
    (g : YamlValue → RRes (Except Unit β))
    (h : YamlValue → RRes (Except Unit γ)) :
    YamlValue → RRes (Except Unit (α × β × γ))
  | .sequence xs =>
      match tupleElem f xs[0]? with
      | .fatal => .fatal
      | .ret a =>
          match tupleElem g xs[1]? with
          | .fatal => .fatal
          | .ret b =>
              match tupleElem h xs[2]? with
              | .fatal => .fatal
              | .ret c => .ret (.ok (a, b, c))
  | _ => .ret (.error ())

/-- impl TryFrom of the reference for 4-tuples. -/
def tryFromTuple4 {α β γ δ : Type} (f : YamlValue → RRes (Except Unit α))
    (g : YamlValue → RRes (Except Unit β))
    (h : YamlValue → RRes (Except Unit γ))
    (j : YamlValue → RRes (Except Unit δ)) :
    YamlValue → RRes (Except Unit (α × β × γ × δ))
  | .sequence xs =>
      match tupleElem f xs[0]? with
      | .fatal => .fatal
      | .ret a =>
          match tupleElem g xs[1]? with
          | .fatal => .fatal
          | .ret b =>
              match tupleElem h xs[2]? with
              | .fatal => .fatal
              | .ret c =>
                  match tupleElem j xs[3]? with
                  | .fatal => .fatal
                  | .ret d => .ret (.ok (a, b, c, d))
  | _ => .ret (.error ())

/-- C9: tuple conversions ignore surplus elements.  For n in 2, 3, 4,
converting a Sequence whose first n elements convert successfully
succeeds with exactly those components, whatever further elements
follow. -/
theorem c9_tuple_surplus_ignored :
    (∀ (α β : Type) (f : YamlValue → RRes (Except Unit α))
      (g : YamlValue → RRes (Except Unit β))
      (x0 x1 : YamlValue) (rest : List YamlValue) (a : α) (b : β),
      f x0 = RRes.ret (Except.ok a) → g x1 = RRes.ret (Except.ok b) →
      tryFromTuple2 f g (YamlValue.sequence (x0 :: x1 :: rest)) =
        RRes.ret (Except.ok (a, b))) ∧
    (∀ (α β γ : Type) (f : YamlValue → RRes (Except Unit α))
      (g : YamlValue → RRes (Except Unit β))
      (h : YamlValue → RRes (Except Unit γ))
      (x0 x1 x2 : YamlValue) (rest : List YamlValue) (a : α) (b : β) (c : γ),
      f x0 = RRes.ret (Except.ok a) → g x1 = RRes.ret (Except.ok b) →
      h x2 = RRes.ret (Except.ok c) →
      tryFromTuple3 f g h (YamlValue.sequence (x0 :: x1 :: x2 :: rest)) =
        RRes.ret (Except.ok (a, b, c))) ∧
    (∀ (α β γ δ : Type) (f : YamlValue → RRes (Except Unit α))
      (g : YamlValue → RRes (Except Unit β))
      (h : YamlValue → RRes (Except Unit γ))
      (j : YamlValue → RRes (Except Unit δ))
      (x0 x1 x2 x3 : YamlValue) (rest : List YamlValue)
      (a : α) (b : β) (c : γ) (d : δ),
      f x0 = RRes.ret (Except.ok a) → g x1 = RRes.ret (Except.ok b) →
      h x2 = RRes.ret (Except.ok c) → j x3 = RRes.ret (Except.ok d) →
      tryFromTuple4 f g h j
        (YamlValue.sequence (x0 :: x1 :: x2 :: x3 :: rest)) =
        RRes.ret (Except.ok (a, b, c, d))) := by
  refine ⟨?_, ?_, ?_⟩
  · intro α β f g x0 x1 rest a b hf hg
    simp [tryFromTuple2, tupleElem, hf, hg]
  · intro α β γ f g h x0 x1 x2 rest a b c hf hg hh
    simp [tryFromTuple3, tupleElem, hf, hg, hh]
  · intro α β γ δ f g h j x0 x1 x2 x3 rest a b c d hf hg hh hj
    simp [tryFromTuple4, tupleElem, hf, hg, hh, hj]

theorem c9_witness :
    tryFromTuple2 tryFromI64 tryFromBool
      (YamlValue.sequence [YamlValue.number 7, YamlValue.bool true,
        YamlValue.null, YamlValue.string "surplus"]) =
      RRes.ret (Except.ok ((7 : Int), true)) :=
  c9_tuple_surplus_ignored.1 Int Bool tryFromI64 tryFromBool
    (YamlValue.number 7) (YamlValue.bool true)
    [YamlValue.null, YamlValue.string "surplus"] 7 true rfl rfl

/-- Mapping::remove and OccupiedEntry::remove (mapping.rs lines 89-93
and 450-454): IndexMap swap removal.  The slot of the located key is
overwritten with the last entry and the last slot is popped; the
removed value is returned. -/
def swapRemove (m : List (YamlValue × YamlValue)) (k : YamlValue) :
    Option YamlValue × List (YamlValue × YamlValue) :=
  match m.findIdx? (fun p => beqV k p.1) with
  | none => (none, m)
  | some i =>
      match m[m.length - 1]? with
      | none => (none, m)
      | some last => ((m[i]?).map Prod.snd, (m.set i last).dropLast)

/-- C7: removal uses swap-with-last-and-shrink.  When the key is found
at slot i, removal returns Some of that entry's value, the length drops
by one, every slot other than i keeps its entry, slot i receives the
entry that was last (when i was not last), and — as the concrete case
shows — the relative order of the survivors is not preserved in
general. -/
theorem c7_swap_remove (m : List (YamlValue × YamlValue)) (k : YamlValue)
    (i : Nat) (hfind : m.findIdx? (fun p => beqV k p.1) = some i) :
    (∃ hi : i < m.length, (swapRemove m k).1 = some (m[i].2)) ∧
    (swapRemove m k).2.length = m.length - 1 ∧
    (∀ j, j < m.length - 1 → j ≠ i → (swapRemove m k).2[j]? = m[j]?) ∧
    (i < m.length - 1 → (swapRemove m k).2[i]? = m[m.length - 1]?) ∧
    swapRemove [(YamlValue.string "a", YamlValue.number 1),
        (YamlValue.string "b", YamlValue.number 2),
        (YamlValue.string "c", YamlValue.number 3)] (YamlValue.string "a") =
      (some (YamlValue.number 1),
        [(YamlValue.string "c", YamlValue.number 3),
          (YamlValue.string "b", YamlValue.number 2)]) := by
  obtain ⟨hi, -, -⟩ := List.findIdx?_eq_some_iff_getElem.mp hfind
  have hlast : m.length - 1 < m.length := by omega
  have hsw : swapRemove m k =
      ((m[i]?).map Prod.snd, (m.set i (m[m.length - 1])).dropLast) := by
    unfold swapRemove
    rw [hfind, List.getElem?_eq_getElem hlast]
  refine ⟨⟨hi, ?_⟩, ?_, ?_, ?_, ?_⟩
  · rw [hsw, List.getElem?_eq_getElem hi]
    rfl
  · rw [hsw]
    simp
  · intro j hj hne
    rw [hsw]
    simp only [List.getElem?_dropLast, List.length_set]
    rw [if_pos hj]
    exact List.getElem?_set_ne (fun h => hne h.symm)
  · intro hilt
    rw [hsw]
    simp only [List.getElem?_dropLast, List.length_set]
    rw [if_pos hilt, List.getElem?_set_self hi, List.getElem?_eq_getElem hlast]
  · have hfa : List.findIdx? (fun p => beqV (YamlValue.string "a") p.1)
        [(YamlValue.string "a", YamlValue.number 1),
          (YamlValue.string "b", YamlValue.number 2),
          (YamlValue.string "c", YamlValue.number 3)] = some 0 := by
      simp [List.findIdx?, beqV]
    unfold swapRemove
    rw [hfa]
    simp

theorem c7_witness :
    (swapRemove [(YamlValue.string "a", YamlValue.number 1),
      (YamlValue.string "b", YamlValue.number 2)]
      (YamlValue.string "b")).2.length = 1 := by
  have h := c7_swap_remove
    [(YamlValue.string "a", YamlValue.number 1),
      (YamlValue.string "b", YamlValue.number 2)]
    (YamlValue.string "b") 1 (by simp [List.findIdx?, beqV])
  exact h.2.1

/-- Decimal text of a serde_yaml number; a Float renders with its
trailing fractional marker (ryu prints integral doubles with a ".0"
suffix). -/
def renderYNum : YNum → String
  | .int n => toString n
  | .float x => toString x ++ ".0"

mutual

/-- Modelled from the spec: the flow-style rendering of a nested node
by the external serde_yaml emitter, which is not part of this
repository (the spec's serialization boundary, section 6).  Only its
totality and its output on simple scalar documents matter for the
claims below. -/
def renderInline : DocValue → String
  | .null => "null"
  | .bool b => if b then "true" else "false"
  | .number n => renderYNum n
  | .string s => s
  | .sequence xs => "[" ++ renderInlineL xs ++ "]"
  | .mapping m => "\x7b" ++ renderInlineP m ++ "\x7d"
termination_by v => sizeOf v
decreasing_by all_goals simp_wf; all_goals omega

def renderInlineL : List DocValue → String
  | [] => ""
  | [x] => renderInline x
  | x :: xs => renderInline x ++ ", " ++ renderInlineL xs
termination_by l => sizeOf l
decreasing_by all_goals simp_wf; all_goals omega

def renderInlineP : List (DocValue × DocValue) → String
  | [] => ""
  | [(k, v)] => renderInline k ++ ": " ++ renderInline v
  | (k, v) :: rest =>
      renderInline k ++ ": " ++ renderInline v ++ ", " ++ renderInlineP rest
termination_by l => sizeOf l
decreasing_by all_goals simp_wf; all_goals omega

end

/-- Modelled from the spec: serde_yaml::to_string on a document node
(the external serialization boundary).  A scalar document renders as
its plain text on one line; empty containers render in flow style;
non-empty containers render one entry per line.  The emitter succeeds
on every node this pipeline produces, so the model is total. -/
def renderDoc : DocValue → String
  | .sequence [] => "[]\n"
  | .sequence xs => String.join (xs.map (fun e => "- " ++ renderInline e ++ "\n"))
  | .mapping [] => "\x7b\x7d\n"
  | .mapping m =>
      String.join (m.map (fun p => renderInline p.1 ++ ": " ++ renderInline p.2 ++ "\n"))
  | d => renderInline d ++ "\n"

/-- impl TryFrom of the reference for String (yaml_value.rs lines
168-176): the value is converted to the document node and that node is
serialized; there is no match on the variant, every variant takes the
same serialization path, and the only error source is the external
emitter (total here). -/
def stringTryFrom (v : YamlValue) : Except Unit String :=
  Except.ok (renderDoc (toDoc v))

/-- C4 (counterexample): the claim says converting a Sequence to String
fails with the recoverable no-value result; in the code the conversion
never matches on the variant and simply serializes the value, so it
succeeds on a Sequence (and likewise on Null). -/
theorem c4_counterexample :
    stringTryFrom (YamlValue.sequence []) ≠ Except.error () := by
  simp [stringTryFrom]

/-- C4 (amended): the String conversion never branches on the variant:
for every value, including Null, Sequence and Mapping, it succeeds and
returns the YAML rendering of the value's document form.  In
particular a String input yields its rendered document text (not a bare
clone of the contained text), and a Number renders through its f64 form
(Number 42 gives the text of 42.0), per this model of the external
emitter. -/
theorem c4_string_conversion_renders :
    (∀ v : YamlValue, stringTryFrom v = Except.ok (renderDoc (toDoc v))) ∧
    stringTryFrom (YamlValue.bool true) = Except.ok "true\n" ∧
    stringTryFrom (YamlValue.bool false) = Except.ok "false\n" ∧
    stringTryFrom (YamlValue.number 42) = Except.ok "42.0\n" ∧
    stringTryFrom (YamlValue.string "abc") = Except.ok "abc\n" ∧
    stringTryFrom YamlValue.null = Except.ok "null\n" ∧
    stringTryFrom (YamlValue.sequence []) = Except.ok "[]\n" ∧
    stringTryFrom (YamlValue.mapping []) = Except.ok "\x7b\x7d\n" := by
  have h42 : roundF64 42 = 42 := roundF64_small (by norm_num)
  refine ⟨fun v => rfl, ?_, ?_, ?_, ?_, ?_, ?_, ?_⟩
  · simp [stringTryFrom, toDoc, renderDoc, renderInline]
  · simp [stringTryFrom, toDoc, renderDoc, renderInline]
  · simp [stringTryFrom, toDoc, renderDoc, renderInline, renderYNum, h42]
    rfl
  · simp [stringTryFrom, toDoc, renderDoc, renderInline]
  · simp [stringTryFrom, toDoc, renderDoc, renderInline]
  · simp [stringTryFrom, toDoc, toDocL, renderDoc]
  · simp [stringTryFrom, toDoc, toDocP, renderDoc, docBuild]

/-- Mapping::new (mapping.rs lines 20-24): the empty map. -/
def mappingNew : List (YamlValue × YamlValue) := []

/-- Deserialize for Mapping (mapping.rs lines 485-522) driven by the
document deserializer: a unit (null) input is forwarded to the
visitor's visit_unit, which returns Mapping::new(); a mapping node goes
to visit_map, which deserializes and inserts every entry in order; any
other node is a type error. -/
def deserializeMapping : DocValue → Except String (List (YamlValue × YamlValue))
  | .null => .ok mappingNew
  | .mapping l => .ok (buildMap (fromDocP l))
  | _ => .error "invalid type: expected a YAML mapping"

/-- C10: deserializing a unit/null document as a Mapping does not fail:
it succeeds with the empty map, the same result Mapping::new() gives
and the same result as deserializing an empty mapping node. -/
theorem c10_null_deserializes_to_empty :
    deserializeMapping DocValue.null = Except.ok mappingNew ∧
    mappingNew = [] ∧
    deserializeMapping DocValue.null = deserializeMapping (DocValue.mapping []) := by
  refine ⟨rfl, rfl, ?_⟩
  simp [deserializeMapping, mappingNew, fromDocP, buildMap]

end Schemafy
